import Mathlib

/-!
Verification development for the contextual code-search engine
(`backend/src`): the snippet extractor (`indexing/code_parser.py`), the
embedding index (`indexing/embedding_generator.py`), the query processor
(`search/query_processor.py`), the lexical search orchestrator
(`search/semantic_search.py`) and the ranking engine
(`search/ranking_engine.py`) are shallowly embedded below, and the
documented properties of the pipeline are proved or refuted against the
embedding.

Python strings are modelled as `List Char` (ASCII-faithful); Python
floats as `ℚ` (every constant in the scored pipeline is a decimal
literal, so exact rational arithmetic mirrors the float data flow);
`datetime` values as whole-day integers; Python dicts as association
lists in insertion order; a raised exception as the `.error` case of
`Except`.  Python's `list.sort` is stable (Timsort); a stable sort is
extensionally determined, so it is modelled by insertion sort, which is
also stable.
-/

/-- Python `str`, modelled as its list of characters. -/
abbrev Str := List Char

/-- String literal to `Str`. -/
def cl (s : String) : Str := s.data

/-- The whitespace characters stripped and split on by Python `str` methods
(ASCII subset). -/
def pyIsSpace (c : Char) : Bool :=
  c = ' ' || c = '\t' || c = '\n' || c = '\r' || c = Char.ofNat 11 || c = Char.ofNat 12

/-- ASCII lower-casing of one character (`str.lower`). -/
def lowerChar (c : Char) : Char :=
  if 65 ≤ c.toNat ∧ c.toNat ≤ 90 then Char.ofNat (c.toNat + 32) else c

/-- Python `str.lower` over a whole string. -/
def lowerStr (s : Str) : Str := s.map lowerChar

/-- A `\w` word character of Python `re`, ASCII model: letter, digit or
underscore. -/
def isWordChar (c : Char) : Bool :=
  (65 ≤ c.toNat ∧ c.toNat ≤ 90) || (97 ≤ c.toNat ∧ c.toNat ≤ 122) ||
  (48 ≤ c.toNat ∧ c.toNat ≤ 57) || c = '_'

/-- Python `pat in s` for strings: `pat` occurs as a contiguous substring. -/
def pyIn (pat : Str) : Str → Bool
  | [] => pat.isEmpty
  | c :: rest => pat.isPrefixOf (c :: rest) || pyIn pat rest

/-- Python `s.startswith(p)`. -/
def pyStartsWith (s p : Str) : Bool := p.isPrefixOf s

/-- Python `s.startswith((p₁, …, pₙ))`. -/
def pyStartsWithAny (s : Str) (ps : List Str) : Bool := ps.any (pyStartsWith s)

/-- Python `str.strip()` (no argument): drop whitespace from both ends
(the trailing end via reversal first; the two ends are independent, so the
order does not matter). -/
def pyStrip (s : Str) : Str :=
  ((s.reverse.dropWhile pyIsSpace).reverse).dropWhile pyIsSpace

/-- `re.sub(r'\s+', ' ', s)`, one character at a time: a whitespace
character is dropped when the previous character was already whitespace and
becomes a single `' '` otherwise. -/
def collapseWsAux (prevWs : Bool) : Str → Str
  | [] => []
  | c :: rest =>
    if pyIsSpace c then
      if prevWs then collapseWsAux true rest else ' ' :: collapseWsAux true rest
    else c :: collapseWsAux false rest

/-- `re.sub(r'\s+', ' ', s)`: replace every maximal whitespace run by a
single space. -/
def collapseWs (s : Str) : Str := collapseWsAux false s

/-- Python `s.split('\n')`. -/
def splitNL (s : Str) : List Str := List.splitOn '\n' s

/-- Python `'\n'.join(lines)`. -/
def joinNL (lines : List Str) : Str := List.intercalate ['\n'] lines

/-- Python `' '.join(parts)`. -/
def joinSp (parts : List Str) : Str := List.intercalate [' '] parts

/-- Python `s.split()` (no argument): maximal non-whitespace runs, empties
discarded. -/
def splitWs : Str → List Str
  | [] => []
  | c :: rest =>
    if pyIsSpace c then splitWs rest
    else (c :: rest.takeWhile (fun d => !pyIsSpace d)) ::
      splitWs (rest.dropWhile (fun d => !pyIsSpace d))
termination_by s => s.length
decreasing_by
  · simp
  · have := (List.dropWhile_sublist (l := rest) (fun d => !pyIsSpace d)).length_le
    simp only [List.length_cons]
    omega

/-- `re.findall(r'\b\w+\b', s)`: the maximal word-character runs of `s`. -/
def findWords : Str → List Str
  | [] => []
  | c :: rest =>
    if isWordChar c then
      (c :: rest.takeWhile isWordChar) :: findWords (rest.dropWhile isWordChar)
    else findWords rest
termination_by s => s.length
decreasing_by
  · have := (List.dropWhile_sublist (l := rest) isWordChar).length_le
    simp only [List.length_cons]
    omega
  · simp

/-- Python `list(set(l))`: the distinct elements of `l`.  CPython set order is
hash-dependent; it is modelled deterministically by first occurrence. -/
def pyListSetAux [DecidableEq α] (seen : List α) : List α → List α
  | [] => []
  | a :: rest =>
    if a ∈ seen then pyListSetAux seen rest else a :: pyListSetAux (a :: seen) rest

/-- Python `list(set(l))` (first-occurrence order model). -/
def pyListSet [DecidableEq α] (l : List α) : List α := pyListSetAux [] l

/-- The stable descending sort `l.sort(key=key, reverse=True)` of Python:
insertion sort under the total preorder `key a ≥ key b`, which is stable and
therefore extensionally equal to Timsort. -/
def pySortDesc (key : α → ℚ) (l : List α) : List α :=
  l.insertionSort (fun a b => key b ≤ key a)

/-- Number rendered into an f-string, e.g. `f"...{start_line}..."`. -/
def natStr (n : Nat) : Str := (toString n).data

/-- Python slice `lines[a-1:b]`: the 1-based inclusive line range `a..b`
(clamped at the ends exactly as Python slicing clamps). -/
def sliceLines (lines : List Str) (a b : Nat) : List Str :=
  (lines.take b).drop (a - 1)

/-- The source text of the file spanning lines `a..b` inclusive:
`'\n'.join(lines[a-1:b])`. -/
def spanText (lines : List Str) (a b : Nat) : Str :=
  joinNL (sliceLines lines a b)

namespace CodeParser

/-- The snippet dataclass of `indexing/code_parser.py`. -/
structure CodeSnippet where
  id : Str
  content : Str
  language : Str
  file_path : Str
  line_start : Nat
  line_end : Nat
  name : Str
  type : Str
  complexity : Str
  quality_score : ℚ
  tags : List Str
  description : Str
deriving Repr, DecidableEq

/-- `CodeParser._calculate_quality_score`: base 7.0, length factor,
complexity factor, comment-ratio factor, clamped to `[1, 10]`. -/
def calculate_quality_score (content : Str) (complexity : Str) : ℚ :=
  let score : ℚ := 7
  let lines := splitNL content
  let score := if 5 ≤ lines.length ∧ lines.length ≤ 50 then score + 1
    else if lines.length > 50 then score - 1 else score
  let score := if complexity = cl "low" then score + 0.5
    else if complexity = cl "high" then score - 0.5 else score
  let comment_lines :=
    (lines.filter (fun l => pyStartsWithAny (pyStrip l) [cl "#", cl "//", cl "/*"])).length
  let comment_ratio : ℚ :=
    if lines ≠ [] then (comment_lines : ℚ) / (lines.length : ℚ) else 0
  let score := if 0.1 ≤ comment_ratio ∧ comment_ratio ≤ 0.3 then score + 0.5
    else if comment_ratio > 0.5 then score - 0.5 else score
  max 1 (min 10 score)

/-- `CodeParser._calculate_simple_complexity`: keyword-substring counting
over the lines, bucketed into `low` / `medium` / `high`. -/
def calculate_simple_complexity (content : Str) : Str :=
  let lines := splitNL content
  let score := lines.foldl (fun (acc : Nat) line =>
    let stripped := pyStrip line
    let acc := if [cl "if ", cl "for ", cl "while ", cl "try:", cl "except",
        cl "catch", cl "switch"].any (fun kw => pyIn kw stripped) then acc + 1 else acc
    if [cl "def ", cl "function ", cl "class ", cl "method "].any
        (fun kw => pyIn kw stripped) then acc + 2 else acc) 0
  if score ≤ 2 then cl "low" else if score ≤ 5 then cl "medium" else cl "high"

/-- One scanning step of a regex search: tries the position of every suffix of
the text, together with the character preceding it (`none` at the start). -/
def scanWithPrev (f : Option Char → Str → Bool) : Option Char → Str → Bool
  | prev, [] => f prev []
  | prev, c :: rest => f prev (c :: rest) || scanWithPrev f (some c) rest

/-- Is the previous character a word boundary for a match that starts with a
word character (i.e. start of text or a non-word character)? -/
def boundaryBefore : Option Char → Bool
  | none => true
  | some c => !isWordChar c

/-- `re.search` of the pattern `\b(?:kw₁|…|kwₙ)\s+\w+` (the `function` and
`class` tag patterns of `CodeParser._extract_tags`): a keyword at a word
boundary, then at least one whitespace character, then a word character. -/
def hasKwThenWord (kws : List Str) (s : Str) : Bool :=
  scanWithPrev (fun prev suf =>
    boundaryBefore prev && kws.any (fun kw =>
      kw.isPrefixOf suf &&
      (let rest := suf.drop kw.length
       match rest with
       | [] => false
       | d :: rest2 =>
         pyIsSpace d &&
         (match rest2.dropWhile pyIsSpace with
          | [] => false
          | e :: _ => isWordChar e)))) none s

/-- `re.search` of the pattern `\b(?:kw₁|…|kwₙ)\b` (the remaining tag
patterns of `CodeParser._extract_tags`): a keyword delimited by word
boundaries on both sides. -/
def hasKwDelimited (kws : List Str) (s : Str) : Bool :=
  scanWithPrev (fun prev suf =>
    boundaryBefore prev && kws.any (fun kw =>
      kw.isPrefixOf suf &&
      (match suf.drop kw.length with
       | [] => true
       | d :: _ => !isWordChar d))) none s

/-- `CodeParser._extract_tags`: the language plus each fixed semantic tag
whose pattern matches the content case-insensitively (`re.IGNORECASE` is
modelled by lower-casing the content; every pattern keyword is lower-case),
de-duplicated by `list(set(tags))`. -/
def extract_tags (content : Str) (language : Str) : List Str :=
  let c := lowerStr content
  let tags := [language]
    ++ (if hasKwThenWord [cl "def", cl "function", cl "func"] c then [cl "function"] else [])
    ++ (if hasKwThenWord [cl "class", cl "interface"] c then [cl "class"] else [])
    ++ (if hasKwDelimited [cl "api", cl "endpoint", cl "route"] c then [cl "api"] else [])
    ++ (if hasKwDelimited [cl "sql", cl "query", cl "database", cl "db"] c then [cl "database"] else [])
    ++ (if hasKwDelimited [cl "async", cl "await", cl "promise"] c then [cl "async"] else [])
    ++ (if hasKwDelimited [cl "test", cl "spec", cl "assert"] c then [cl "test"] else [])
    ++ (if hasKwDelimited [cl "sort", cl "search", cl "filter", cl "map", cl "reduce"] c then [cl "algorithm"] else [])
  pyListSet tags

/-- Is a line kept by the generic block strategy (non-blank after stripping,
not a `//` or `/*` comment)? -/
def isCodeLine (l : Str) : Bool :=
  let stripped := pyStrip l
  !stripped.isEmpty && !pyStartsWith stripped (cl "//") && !pyStartsWith stripped (cl "/*")

/-- Snippet constructor shared by the two emission sites of
`CodeParser._parse_generic_file` (block content, `>20` stripped-length
minimum, `code_block_{start}` name). -/
def mkGenSnippet (fp language : Str) (block : List Str) (s e : Nat) :
    Option CodeSnippet :=
  let content := joinNL block
  if (pyStrip content).length > 20 then
    let complexity := calculate_simple_complexity content
    some { id := fp ++ cl ":" ++ natStr s ++ cl ":" ++ natStr e
           content := content
           language := language
           file_path := fp
           line_start := s
           line_end := e
           name := cl "code_block_" ++ natStr s
           type := cl "block"
           complexity := complexity
           quality_score := calculate_quality_score content complexity
           tags := extract_tags content language
           description := cl "Code block starting at line " ++ natStr s }
  else none

/-- The loop of `CodeParser._parse_generic_file`: `rem` is the remaining
lines, `i` the 1-based index of its head, `curBlock` the lines collected for
the current block and `curStart` the Python `current_start` variable.  A
non-code line closes the current block (emitting it when long enough) and
resets `current_start` to the next line — but only when the block is
non-empty, which is the slip the C3 analysis exposes. -/
def parse_generic_aux (fp language : Str) :
    List Str → Nat → List Str → Nat → List CodeSnippet
  | [], i, curBlock, curStart =>
    if curBlock ≠ [] then (mkGenSnippet fp language curBlock curStart (i - 1)).toList
    else []
  | l :: rest, i, curBlock, curStart =>
    if isCodeLine l then parse_generic_aux fp language rest (i + 1) (curBlock ++ [l]) curStart
    else if curBlock ≠ [] then
      (mkGenSnippet fp language curBlock curStart (i - 1)).toList
        ++ parse_generic_aux fp language rest (i + 1) [] (i + 1)
    else parse_generic_aux fp language rest (i + 1) [] curStart

/-- `CodeParser._parse_generic_file`. -/
def parse_generic_file (content fp language : Str) : List CodeSnippet :=
  parse_generic_aux fp language (splitNL content) 1 [] 1

end CodeParser

namespace CodeParser

/-- The grouping loop of `CodeParser._extract_module_snippets`: maximal runs
of consecutive 1-based line indices, a run `(block_start, block_end)` kept
only when `block_end - block_start > 0` (at least two lines). -/
def groupConsecAux (bs be : Nat) : List Nat → List (Nat × Nat)
  | [] => if be - bs > 0 then [(bs, be)] else []
  | j :: rest =>
    if j = be + 1 then groupConsecAux bs j rest
    else (if be - bs > 0 then [(bs, be)] else []) ++ groupConsecAux j j rest

/-- Maximal consecutive runs (length ≥ 2) of an index list. -/
def groupConsec : List Nat → List (Nat × Nat)
  | [] => []
  | j :: rest => groupConsecAux j j rest

/-- `CodeParser._create_module_snippet`: slice the block's lines out of the
file, discard when the stripped content is shorter than 10 characters. -/
def create_module_snippet (content fp : Str) (start_line end_line : Nat) :
    Option CodeSnippet :=
  let lines := splitNL content
  let snippet_content := joinNL (sliceLines lines start_line end_line)
  if (pyStrip snippet_content).length < 10 then none
  else
    let complexity := calculate_simple_complexity snippet_content
    some { id := fp ++ cl ":" ++ natStr start_line ++ cl ":" ++ natStr end_line
           content := snippet_content
           language := cl "python"
           file_path := fp
           line_start := start_line
           line_end := end_line
           name := cl "module_block_" ++ natStr start_line
           type := cl "module"
           complexity := complexity
           quality_score := calculate_quality_score snippet_content complexity
           tags := extract_tags snippet_content (cl "python")
           description := cl "Module-level code block starting at line " ++ natStr start_line }

/-- `CodeParser._extract_module_snippets` (its `tree` argument is unused by
the source): non-blank lines not starting with `#`, grouped into consecutive
runs, each run of length ≥ 2 turned into a module snippet. -/
def extract_module_snippets (content fp : Str) : List CodeSnippet :=
  let lines := splitNL content
  let module_lines := (lines.enum.map (fun p => (p.1 + 1, p.2))).filter
    (fun p => !(pyStrip p.2).isEmpty && !pyStartsWith (pyStrip p.2) (cl "#"))
  (groupConsec (module_lines.map Prod.fst)).filterMap
    (fun p => create_module_snippet content fp p.1 p.2)

/-- The kind of a Python AST node visited by `ast.walk`. -/
inductive PyNodeKind
  | functionDef
  | asyncFunctionDef
  | classDef
  | otherNode
deriving Repr, DecidableEq

/-- A node reported by the external `ast` parser: position data as `ast`
reports it, the walk-count that `CodeParser._calculate_complexity` computes
over the node's subtree (the walk itself lives in the external library), and
the leading string-literal statement used as a docstring. -/
structure PyNode where
  kind : PyNodeKind
  name : Str
  lineno : Nat
  end_lineno : Nat
  walkComplexity : Nat
  docstring : Option Str
deriving Repr, DecidableEq

/-- `CodeParser._calculate_complexity`: bucket the subtree walk-count with
the fixed `≤2` / `≤5` breakpoints. -/
def calculate_complexity (node : PyNode) : Str :=
  if node.walkComplexity ≤ 2 then cl "low"
  else if node.walkComplexity ≤ 5 then cl "medium" else cl "high"

/-- `CodeParser._generate_description`: the stripped docstring when the first
body statement is a string literal, else a synthesized `"<Kind> <name>"`
(`'function'.title() = 'Function'`, `'async_function'.title() =
'Async_Function'`). -/
def generate_description (node : PyNode) : Str :=
  match node.docstring with
  | some d => pyStrip d
  | none =>
    match node.kind with
    | .functionDef => cl "Function " ++ node.name
    | .asyncFunctionDef => cl "Async_Function " ++ node.name
    | .classDef => cl "Class " ++ node.name
    | .otherNode => cl "Othernode " ++ node.name

/-- `CodeParser._extract_python_node`: slice the node's reported line span
out of the file content; `None` for any node that is not a function, async
function or class definition. -/
def extract_python_node (node : PyNode) (content fp : Str) : Option CodeSnippet :=
  let lines := splitNL content
  let start_line := node.lineno
  let end_line := node.end_lineno
  let snippet_content := joinNL (sliceLines lines start_line end_line)
  let kindData : Option (Str × Str) :=
    match node.kind with
    | .functionDef => some (cl "function", node.name)
    | .asyncFunctionDef => some (cl "async_function", node.name)
    | .classDef => some (cl "class", node.name)
    | .otherNode => none
  match kindData with
  | none => none
  | some (node_type, name) =>
    let complexity := calculate_complexity node
    some { id := fp ++ cl ":" ++ natStr start_line ++ cl ":" ++ natStr end_line
           content := snippet_content
           language := cl "python"
           file_path := fp
           line_start := start_line
           line_end := end_line
           name := name
           type := node_type
           complexity := complexity
           quality_score := calculate_quality_score snippet_content complexity
           tags := extract_tags snippet_content (cl "python")
           description := generate_description node }

/-- The outcome of the external `ast.parse` call: either the walked node
list, or a raised `SyntaxError`. -/
abbrev AstParse := Str → Except Unit (List PyNode)

/-- `CodeParser._parse_python_file`: walk the parsed tree and extract each
function / async-function / class node, then append the module-level
snippets; a `SyntaxError` from `ast.parse` is caught and the snippets
collected so far — none, since the parse is the first statement — are
returned.  The function never lets the exception escape. -/
def parse_python_file (astParse : AstParse) (content fp : Str) : List CodeSnippet :=
  match astParse content with
  | .error _ => []
  | .ok nodes =>
    (nodes.filterMap (fun n => extract_python_node n content fp))
      ++ extract_module_snippets content fp

end CodeParser

namespace SemanticSearch

open CodeParser

/-- The result dataclass of `search/semantic_search.py`. -/
structure SSearchResult where
  snippet : CodeSnippet
  score : ℚ
  match_type : Str
  highlighted_content : Str
deriving Repr, DecidableEq

/-- `SemanticSearch._calculate_relevance_score`: the additive lexical rule
over a lower-cased query, capped at 1.0. -/
def calculate_relevance_score (s : CodeSnippet) (query : Str) : ℚ :=
  let score : ℚ := 0
  let content_lower := lowerStr s.content
  let score := if pyIn query content_lower then score + 0.8 else score
  let score := if pyIn query (lowerStr s.name) then score + 0.9 else score
  let score := if pyIn query (lowerStr s.description) then score + 0.7 else score
  let score := s.tags.foldl
    (fun sc tag => if pyIn query (lowerStr tag) then sc + 0.6 else sc) score
  let score := if pyIn query (lowerStr s.language) then score + 0.5 else score
  let score := if pyIn query (lowerStr s.type) then score + 0.4 else score
  let score := if pyIn query (lowerStr s.file_path) then score + 0.3 else score
  let keywords := splitWs query
  let score := keywords.foldl (fun sc kw =>
    let sc := if pyIn kw content_lower then sc + 0.1 else sc
    let sc := if pyIn kw (lowerStr s.name) then sc + 0.2 else sc
    if pyIn kw (lowerStr s.description) then sc + 0.15 else sc) score
  let score := score + s.quality_score * 0.01
  min 1 score

/-- `SemanticSearch._determine_match_type`. -/
def determine_match_type (s : CodeSnippet) (query : Str) : Str :=
  if pyIn query (lowerStr s.name) then cl "exact_name"
  else if pyIn query (lowerStr s.content) then cl "content_match"
  else if pyIn query (lowerStr s.description) then cl "description_match"
  else if s.tags.any (fun t => pyIn query (lowerStr t)) then cl "tag_match"
  else cl "keyword_match"

/-- `re.sub` of the escaped literal pattern `t` with flag `re.IGNORECASE`:
replace every non-overlapping case-insensitive occurrence of `t`, scanning
left to right, by `repl`.  (The source only calls this with `len(t) > 2`;
an empty pattern is treated as matching nowhere.) -/
def subCI (t repl : Str) : Str → Str
  | [] => []
  | c :: rest =>
    if h : t ≠ [] ∧ lowerStr ((c :: rest).take t.length) = lowerStr t then
      repl ++ subCI t repl ((c :: rest).drop t.length)
    else c :: subCI t repl rest
termination_by s => s.length
decreasing_by
  · have ht : t.length ≥ 1 := by
      cases t with
      | nil => exact absurd rfl h.1
      | cons a t => simp
    simp only [List.length_drop, List.length_cons]
    omega
  · simp

/-- `SemanticSearch._highlight_matches`: for each whitespace token of the
query longer than two characters, substitute `<mark>token</mark>` for each
case-insensitive occurrence of the token, one token after another over the
result of the previous substitution. -/
def highlight_matches (content query : Str) : Str :=
  if query = [] then content
  else (splitWs query).foldl (fun acc part =>
    if part.length > 2 then
      subCI part (cl "<mark>" ++ part ++ cl "</mark>") acc
    else acc) content

/-- `SemanticSearch.search`: score every corpus snippet against the
lower-cased query, keep scores at or above the threshold, sort descending
(stably) and truncate to `max_results`. -/
def search (corpus : List CodeSnippet) (query : Str) (max_results : Nat)
    (similarity_threshold : ℚ) : List SSearchResult :=
  if corpus = [] then []
  else
    let query_lower := lowerStr query
    let results := corpus.filterMap (fun s =>
      let score := calculate_relevance_score s query_lower
      if similarity_threshold ≤ score then
        some { snippet := s
               score := score
               match_type := determine_match_type s query_lower
               highlighted_content := highlight_matches s.content query_lower }
      else none)
    (pySortDesc (fun r => r.score) results).take max_results

/-- The lexical scoring rule in the words of the specification: one flat sum
of the seven substring bonuses (0.6 once per matching tag), the per-token
0.1 / 0.2 / 0.15 bonuses and the `quality_score × 0.01` bonus, capped at
1.0.  Written independently of `calculate_relevance_score` to compare the
two. -/
def spec_lexical_score (s : CodeSnippet) (q : Str) : ℚ :=
  min 1 (
    (if pyIn q (lowerStr s.content) then (0.8 : ℚ) else 0)
    + (if pyIn q (lowerStr s.name) then 0.9 else 0)
    + (if pyIn q (lowerStr s.description) then 0.7 else 0)
    + 0.6 * ((s.tags.filter (fun t => pyIn q (lowerStr t))).length : ℚ)
    + (if pyIn q (lowerStr s.language) then 0.5 else 0)
    + (if pyIn q (lowerStr s.type) then 0.4 else 0)
    + (if pyIn q (lowerStr s.file_path) then 0.3 else 0)
    + ((splitWs q).map (fun kw =>
        (if pyIn kw (lowerStr s.content) then (0.1 : ℚ) else 0)
        + (if pyIn kw (lowerStr s.name) then 0.2 else 0)
        + (if pyIn kw (lowerStr s.description) then 0.15 else 0))).sum
    + s.quality_score * 0.01)

/-- Highlighting in the words of the specification claim: wrap each
case-insensitive occurrence of the token in markers, preserving the matched
text of the content inside the marker.  Written independently of
`subCI` to compare the two. -/
def spec_highlight_one (t : Str) : Str → Str
  | [] => []
  | c :: rest =>
    if h : t ≠ [] ∧ lowerStr ((c :: rest).take t.length) = lowerStr t then
      cl "<mark>" ++ (c :: rest).take t.length ++ cl "</mark>"
        ++ spec_highlight_one t ((c :: rest).drop t.length)
    else c :: spec_highlight_one t rest
termination_by s => s.length
decreasing_by
  · have ht : t.length ≥ 1 := by
      cases t with
      | nil => exact absurd rfl h.1
      | cons a t => simp
    simp only [List.length_drop, List.length_cons]
    omega
  · simp

end SemanticSearch

/-- Python truthiness of an `Optional[str]`: `None` and the empty string are
falsy. -/
def optStrTruthy : Option Str → Bool
  | some s => !s.isEmpty
  | none => false

namespace EmbeddingGenerator

/-- Python truthiness of an `Optional[List[float]]` vector: `None` and the
empty list are falsy (`if codebert_emb:`). -/
def optVecTruthy : Option (List ℚ) → Bool
  | some v => !v.isEmpty
  | none => false

/-- `np.mean(embeddings, axis=0)`: the element-wise mean when all vectors
have equal length; a ragged input raises inside `numpy`, which the caller's
`except` turns into `None`. -/
def npMeanAxis0 (vs : List (List ℚ)) : Option (List ℚ) :=
  match vs with
  | [] => none
  | v :: rest =>
    if rest.all (fun w => w.length = v.length) then
      some ((List.range v.length).map (fun i =>
        ((v :: rest).map (fun w => w.getD i 0)).sum / ((v :: rest).length : ℚ)))
    else none

/-- `EmbeddingGenerator._generate_hybrid_embedding`, with the two underlying
strategy calls (`_generate_codebert_embedding`, `_generate_sentence_embedding`
— external ML models returning a vector or `None`) abstracted as inputs:
collect the truthy vectors, return `None` when none, the single vector when
one, else the `numpy` mean (with a raised `numpy` error caught as `None`).
The function is total: no exception reaches the caller. -/
def generate_hybrid_embedding (codebert_emb sentence_emb : Option (List ℚ)) :
    Option (List ℚ) :=
  let embeddings :=
    (if optVecTruthy codebert_emb then [codebert_emb.getD []] else [])
    ++ (if optVecTruthy sentence_emb then [sentence_emb.getD []] else [])
  if embeddings = [] then none
  else if embeddings.length = 1 then embeddings.head?
  else npMeanAxis0 embeddings

/-- `EmbeddingGenerator.get_embedding_dimension`: the declared vector
dimensionality per model identifier (768 by default). -/
def get_embedding_dimension (model_type : Str) : Nat :=
  if model_type = cl "codebert" then 768
  else if model_type = cl "graphcodebert" then 768
  else if model_type = cl "sentence" then 384
  else if model_type = cl "hybrid" then 768
  else 768

/-- `EmbeddingGenerator.find_similar_snippets`, with `calculate_similarity`
(cosine similarity over `numpy` floats, an external numeric kernel)
abstracted as `sim`, and the snippet-embedding dict as an association list in
its insertion order: keep pairs scoring at or above the threshold, sort
stably by score descending, truncate to `top_k`. -/
def find_similar_snippets (sim : List ℚ → List ℚ → ℚ) (query_embedding : List ℚ)
    (snippet_embeddings : List (Str × List ℚ)) (top_k : Nat) (threshold : ℚ) :
    List (Str × ℚ) :=
  let similarities := snippet_embeddings.filterMap (fun p =>
    let s := sim query_embedding p.2
    if threshold ≤ s then some (p.1, s) else none)
  (pySortDesc (fun p => p.2) similarities).take top_k

end EmbeddingGenerator

/-- `models/search_result.py` `SearchIntent`. -/
inductive SearchIntent
  | find_function
  | find_class
  | find_algorithm
  | find_example
  | find_pattern
  | find_api
  | debug_error
  | learn_concept
  | compare_implementations
deriving Repr, DecidableEq

/-- `models/search_result.py` `SearchQuery` (the fields the embedded
pipeline reads or writes). -/
structure SearchQuery where
  query : Str
  intent : Option SearchIntent
  languages : List Str
  repositories : List Str
  complexity_levels : List Str
  similarity_threshold : ℚ
  expand_query : Bool
  query_keywords : List Str
  query_topics : List Str
deriving Repr, DecidableEq

/-- A raised Python exception, by class. -/
inductive PyErr
  | nameError
  | otherError
deriving Repr, DecidableEq

namespace QueryProcessor

/-- A character kept by `re.sub(r'[^\w\s\-_\.]', ' ', ·)`. -/
def isAllowedQueryChar (c : Char) : Bool :=
  isWordChar c || pyIsSpace c || c = '-' || c = '_' || c = '.'

/-- `QueryProcessor._normalize_query`: collapse whitespace on the stripped
text, lower-case, blank out characters outside `\w`, whitespace, `-`, `_`,
`.`, and collapse whitespace on the stripped text again. -/
def normalize_query (query : Str) : Str :=
  let query := collapseWs (pyStrip query)
  let query := lowerStr query
  let query := query.map (fun c => if isAllowedQueryChar c then c else ' ')
  collapseWs (pyStrip query)

/-- The stop-word set of `QueryProcessor._extract_keywords`. -/
def stop_words : List Str :=
  [cl "the", cl "a", cl "an", cl "and", cl "or", cl "but", cl "in", cl "on",
   cl "at", cl "to", cl "for", cl "of", cl "with", cl "by", cl "is", cl "are",
   cl "was", cl "were", cl "be", cl "been", cl "being", cl "have", cl "has",
   cl "had", cl "do", cl "does", cl "did", cl "will", cl "would", cl "could",
   cl "should", cl "may", cl "might", cl "can", cl "this", cl "that",
   cl "these", cl "those"]

/-- `QueryProcessor._get_programming_keywords`: the generic vocabulary plus
the language-specific keyword sets added for the configured
`SUPPORTED_LANGUAGES` (`python`, `javascript`, `typescript`, `java`, `cpp`
have dedicated branches; membership is what matters, duplicates are
harmless). -/
def programming_keywords : List Str :=
  [cl "function", cl "class", cl "method", cl "variable", cl "constant",
   cl "import", cl "export", cl "module", cl "package", cl "library",
   cl "framework", cl "api", cl "algorithm", cl "data structure",
   cl "sorting", cl "searching", cl "recursion", cl "iteration", cl "loop",
   cl "condition", cl "exception", cl "error", cl "debug", cl "test",
   cl "unit", cl "integration", cl "database", cl "query", cl "sql",
   cl "http", cl "rest", cl "graphql", cl "authentication",
   cl "authorization", cl "encryption", cl "security", cl "performance",
   cl "optimization", cl "cache", cl "memory", cl "cpu", cl "thread",
   cl "process", cl "async", cl "await", cl "promise", cl "callback",
   cl "event", cl "listener", cl "middleware", cl "router", cl "controller",
   cl "model", cl "view", cl "template", cl "component", cl "service",
   cl "repository",
   cl "def", cl "from", cl "as", cl "if", cl "else", cl "elif", cl "for",
   cl "while", cl "try", cl "except", cl "finally", cl "with", cl "lambda",
   cl "yield",
   cl "const", cl "let", cl "var", cl "catch", cl "extends", cl "super",
   cl "interface", cl "type", cl "enum", cl "namespace", cl "declare",
   cl "public", cl "private", cl "protected", cl "static", cl "final",
   cl "implements", cl "throw", cl "throws", cl "new", cl "this",
   cl "struct", cl "typename", cl "virtual", cl "friend", cl "inline",
   cl "explicit", cl "operator", cl "delete"]

/-- `QueryProcessor._extract_keywords`: word tokens of the lower-cased
query, minus stop words and short tokens, plus every token from the
programming vocabulary, de-duplicated by `list(set(...))`. -/
def extract_keywords (query : Str) : List Str :=
  let words := findWords (lowerStr query)
  let keywords := words.filter (fun w => decide (w ∉ stop_words) && decide (w.length > 2))
  let keywords := keywords ++ words.filter (fun w => w ∈ programming_keywords)
  pyListSet keywords

/-- The synonym table of `QueryProcessor._expand_query`, in dict insertion
order. -/
def synonyms : List (Str × List Str) :=
  [(cl "sort", [cl "sorting", cl "order", cl "arrange"]),
   (cl "search", [cl "finding", cl "lookup", cl "query"]),
   (cl "function", [cl "method", cl "procedure", cl "routine"]),
   (cl "class", [cl "type", cl "object", cl "struct"]),
   (cl "error", [cl "exception", cl "bug", cl "issue", cl "problem"]),
   (cl "api", [cl "endpoint", cl "service", cl "interface"]),
   (cl "database", [cl "db", cl "storage", cl "repository"]),
   (cl "authentication", [cl "auth", cl "login", cl "security"]),
   (cl "performance", [cl "speed", cl "efficiency", cl "optimization"]),
   (cl "test", [cl "testing", cl "unit test", cl "integration test"]),
   (cl "algorithm", [cl "algo", cl "procedure", cl "method"]),
   (cl "data structure", [cl "ds", cl "container", cl "collection"]),
   (cl "recursion", [cl "recursive", cl "recursively"]),
   (cl "iteration", [cl "loop", cl "iterate", cl "for loop"]),
   (cl "async", [cl "asynchronous", cl "non-blocking"]),
   (cl "cache", [cl "caching", cl "memoization"]),
   (cl "middleware", [cl "interceptor", cl "filter"]),
   (cl "template", [cl "template", cl "view", cl "component"])]

/-- `QueryProcessor._expand_query`: the synonym lists of every table key
occurring in the lower-cased query, concatenated in table order, first five
terms kept. -/
def expand_query (query : Str) : List Str :=
  let query_lower := lowerStr query
  (((synonyms.filter (fun p => pyIn p.1 query_lower)).map Prod.snd).flatten).take 5

/-- `QueryProcessor._extract_topics`: its first statement reads the global
name `SUPPORTED_LANGUAGES`, which `query_processor.py` never defines or
imports (the module only imports `settings`), so the call raises `NameError`
on every input before computing anything. -/
def extract_topics (_query : Str) : Except PyErr (List Str) :=
  Except.error PyErr.nameError

/-- `QueryProcessor.process_query`, with intent detection abstracted as a
total function (`_detect_intent` catches every classifier failure and falls
back to the total rule-based path, so it never raises): the stages mutate
the query object in place inside one `try`; the `except` arm returns the
object as mutated so far.  Since `_extract_topics` always raises, the stages
after it — topic assignment and final normalization — never run. -/
def process_query (detect_intent : Str → Option SearchIntent)
    (query : SearchQuery) : SearchQuery :=
  let q1 := { query with query_keywords := extract_keywords query.query }
  let q2 := { q1 with intent := detect_intent q1.query }
  let q3 := if q2.expand_query then
      { q2 with query := q2.query ++ ' ' :: joinSp (expand_query q2.query) }
    else q2
  match extract_topics q3.query with
  | .error _ => q3
  | .ok topics =>
    let q4 := { q3 with query_topics := topics }
    { q4 with query := normalize_query q4.query }

end QueryProcessor

namespace RankingEngine

/-- `models/code_snippet.py` `CodeSnippet` (the fields the ranking engine
reads).  `created_at` is the creation `datetime` in whole days (the engine
only ever reads its age in days); the model defines no `repository` field. -/
structure MSnippet where
  content : Str
  name : Option Str
  docstring : Option Str
  parameters : Option (List Str)
  return_type : Option Str
  keywords : List Str
  language : Str
  repository_id : Str
  complexity_level : Str
  code_type : Str
  complexity_score : ℚ
  quality_score : ℚ
  readability_score : ℚ
  usage_count : Nat
  created_at : ℤ
deriving Repr, DecidableEq

/-- `models/search_result.py` `SearchResult` (the fields the ranking engine
reads or writes). -/
structure RSearchResult where
  snippet : MSnippet
  similarity_score : ℚ
  relevance_score : ℚ
  quality_boost : ℚ
  popularity_boost : ℚ
  recency_boost : ℚ
  documentation_boost : ℚ
  view_count : Nat
deriving Repr, DecidableEq

/-- `settings.SEARCH_WEIGHTS` of `backend/src/config/settings.py`. -/
def weight_semantic_similarity : ℚ := 0.4

/-- `settings.SEARCH_WEIGHTS['keyword_match']`. -/
def weight_keyword_match : ℚ := 0.3

/-- `settings.SEARCH_WEIGHTS['code_quality']`. -/
def weight_code_quality : ℚ := 0.1

/-- `settings.SEARCH_WEIGHTS['popularity']`. -/
def weight_popularity : ℚ := 0.1

/-- `settings.SEARCH_WEIGHTS['recency']`. -/
def weight_recency : ℚ := 0.05

/-- `settings.SEARCH_WEIGHTS['documentation']`. -/
def weight_documentation : ℚ := 0.05

/-- `RankingEngine._calculate_keyword_score`: distinct-keyword overlap plus
half a point per distinct query keyword found in the content, normalized by
1.5 × the distinct query-keyword count, capped at 1.0. -/
def calculate_keyword_score (r : RSearchResult) (q : SearchQuery) : ℚ :=
  if q.query_keywords = [] then 0
  else
    let snippet_keywords := pyListSet r.snippet.keywords
    let query_keywords := pyListSet q.query_keywords
    if query_keywords = [] then 0
    else
      let overlap := (snippet_keywords.filter (fun k => k ∈ query_keywords)).length
      let total_query_keywords := query_keywords.length
      let content_lower := lowerStr r.snippet.content
      let content_matches :=
        (query_keywords.filter (fun k => pyIn (lowerStr k) content_lower)).length
      min (((overlap : ℚ) + (content_matches : ℚ) * 0.5)
        / ((total_query_keywords : ℚ) * 1.5)) 1

/-- `RankingEngine._calculate_quality_score`: snippet quality minus a
complexity penalty, plus readability and docstring bonuses, clamped to
`[0, 1]`. -/
def calculate_quality_score (r : RSearchResult) : ℚ :=
  let base_quality := r.snippet.quality_score
  let complexity_penalty :=
    if r.snippet.complexity_score > 15 then
      min ((r.snippet.complexity_score - 15) / 20) 0.3
    else 0
  let readability_bonus := r.snippet.readability_score * 0.2
  let doc_bonus : ℚ := if optStrTruthy r.snippet.docstring then 0.1 else 0
  let quality_score := base_quality - complexity_penalty + readability_bonus + doc_bonus
  max (min quality_score 1) 0

/-- `RankingEngine._calculate_popularity_score`: the `models` `CodeSnippet`
defines no `repository` field, so `hasattr(result.snippet, 'repository')` is
`False` and the repository term stays 0; the usage and view terms are capped
ratios. -/
def calculate_popularity_score (r : RSearchResult) : ℚ :=
  let repo_popularity : ℚ := 0
  let usage_score := min ((r.snippet.usage_count : ℚ) / 100) 1
  let view_score := min ((r.view_count : ℚ) / 50) 1
  repo_popularity * 0.5 + usage_score * 0.3 + view_score * 0.2

/-- `RankingEngine._calculate_recency_score`: a step function of the age in
days at ranking time `now` (a `datetime` is always truthy, so the
missing-timestamp arm of the source never runs). -/
def calculate_recency_score (now : ℤ) (r : RSearchResult) : ℚ :=
  let days_old := now - r.snippet.created_at
  if days_old ≤ 30 then 1
  else if days_old ≤ 90 then 0.8
  else if days_old ≤ 365 then 0.6
  else if days_old ≤ 730 then 0.4
  else 0.2

/-- `RankingEngine._calculate_documentation_score`: additive docstring /
name / parameters / return-type bonuses plus a capped comment-ratio bonus,
capped at 1.0. -/
def calculate_documentation_score (r : RSearchResult) : ℚ :=
  let doc_score : ℚ := 0
  let doc_score := if optStrTruthy r.snippet.docstring then doc_score + 0.4 else doc_score
  let doc_score := match r.snippet.name with
    | some n => if n.length > 2 then doc_score + 0.2 else doc_score
    | none => doc_score
  let doc_score := match r.snippet.parameters with
    | some ps => if ps.length > 0 then doc_score + 0.2 else doc_score
    | none => doc_score
  let doc_score := if optStrTruthy r.snippet.return_type then doc_score + 0.1 else doc_score
  let lines := splitNL r.snippet.content
  let comment_lines := (lines.filter (fun l =>
    pyStartsWithAny (pyStrip l) [cl "#", cl "//", cl "/*", cl "*/"])).length
  let total_lines := lines.length
  let doc_score := if total_lines > 0 then
      doc_score + min (((comment_lines : ℚ) / (total_lines : ℚ)) * 0.3) 0.1
    else doc_score
  min doc_score 1

/-- `RankingEngine._calculate_relevance_score`: the weighted sum of the six
sub-scores, multiplied by the four boost factors, capped at 1.0. -/
def calculate_relevance_score (now : ℤ) (r : RSearchResult) (q : SearchQuery) : ℚ :=
  let semantic_score := r.similarity_score
  let keyword_score := calculate_keyword_score r q
  let quality_score := calculate_quality_score r
  let popularity_score := calculate_popularity_score r
  let recency_score := calculate_recency_score now r
  let documentation_score := calculate_documentation_score r
  let final_score :=
    semantic_score * weight_semantic_similarity
    + keyword_score * weight_keyword_match
    + quality_score * weight_code_quality
    + popularity_score * weight_popularity
    + recency_score * weight_recency
    + documentation_score * weight_documentation
  let final_score := final_score * r.quality_boost
  let final_score := final_score * r.popularity_boost
  let final_score := final_score * r.recency_boost
  let final_score := final_score * r.documentation_boost
  min final_score 1

/-- `RankingEngine._get_intent_boost`: the fixed intent → multiplier table
(every entry of the Python dict literal, selected by `intent.value`). -/
def get_intent_boost (r : RSearchResult) (intent : SearchIntent) : ℚ :=
  match intent with
  | .find_function =>
    if r.snippet.code_type = cl "function" ∨ r.snippet.code_type = cl "method"
    then 1.2 else 0.8
  | .find_class => if r.snippet.code_type = cl "class" then 1.2 else 0.8
  | .find_algorithm => if cl "algorithm" ∈ r.snippet.keywords then 1.3 else 1
  | .find_example => if optStrTruthy r.snippet.docstring then 1.1 else 1
  | .find_pattern => if r.snippet.keywords.length > 3 then 1.2 else 1
  | .find_api => if cl "api" ∈ r.snippet.keywords then 1.2 else 1
  | .debug_error =>
    if cl "error" ∈ r.snippet.keywords ∨ cl "exception" ∈ r.snippet.keywords
    then 1.1 else 1
  | .learn_concept => if optStrTruthy r.snippet.docstring then 1.2 else 1
  | .compare_implementations => if r.snippet.complexity_score > 5 then 1.1 else 1

/-- `RankingEngine.apply_boosts` for one result: conditional quality-boost
multipliers for language / repository / intent / complexity matches, then
the four independent caps 2.0 / 1.5 / 1.3 / 1.2. -/
def apply_boosts_one (q : SearchQuery) (r : RSearchResult) : RSearchResult :=
  let r := if q.languages ≠ [] ∧ r.snippet.language ∈ q.languages then
      { r with quality_boost := r.quality_boost * 1.2 } else r
  let r := if q.repositories ≠ [] ∧ r.snippet.repository_id ∈ q.repositories then
      { r with quality_boost := r.quality_boost * 1.1 } else r
  let r := match q.intent with
    | some intent => { r with quality_boost := r.quality_boost * get_intent_boost r intent }
    | none => r
  let r := if q.complexity_levels ≠ [] ∧ r.snippet.complexity_level ∈ q.complexity_levels
    then { r with quality_boost := r.quality_boost * 1.1 } else r
  { r with quality_boost := min r.quality_boost 2
           popularity_boost := min r.popularity_boost 1.5
           recency_boost := min r.recency_boost 1.3
           documentation_boost := min r.documentation_boost 1.2 }

/-- `RankingEngine.apply_boosts` over the result list. -/
def apply_boosts (results : List RSearchResult) (q : SearchQuery) : List RSearchResult :=
  results.map (apply_boosts_one q)

/-- `RankingEngine.rank_results`: assign every result its relevance score,
then sort by it, descending and stable. -/
def rank_results (now : ℤ) (results : List RSearchResult) (q : SearchQuery) :
    List RSearchResult :=
  pySortDesc (fun r => r.relevance_score)
    (results.map (fun r => { r with relevance_score := calculate_relevance_score now r q }))

end RankingEngine

namespace CodeParser

/-- The quality-score rule in the words of the specification: `7.0`, plus
`1.0` for a line count in `[5, 50]` or minus `1.0` beyond 50, plus/minus
`0.5` for low/high complexity, plus `0.5` for a comment-line ratio in
`[0.1, 0.3]` or minus `0.5` for a ratio above `0.5`, clamped to `[1, 10]` —
one flat sum, written independently of `calculate_quality_score` to compare
the two. -/
def spec_quality_score (content : Str) (complexity : Str) : ℚ :=
  let lines := splitNL content
  let lineCount := lines.length
  let commentCount :=
    (lines.filter (fun l => pyStartsWithAny (pyStrip l) [cl "#", cl "//", cl "/*"])).length
  let ratio : ℚ := (commentCount : ℚ) / (lineCount : ℚ)
  max 1 (min 10 (7
    + (if 5 ≤ lineCount ∧ lineCount ≤ 50 then 1 else if lineCount > 50 then -1 else 0)
    + (if complexity = cl "low" then 0.5 else if complexity = cl "high" then -0.5 else 0)
    + (if 0.1 ≤ ratio ∧ ratio ≤ 0.3 then 0.5 else if ratio > 0.5 then -0.5 else 0)))

end CodeParser

/-!  General facts about the building blocks, shared by the claim theorems
below. -/

theorem splitOn_ne_nil (c : Char) (s : Str) : List.splitOn c s ≠ [] := by
  cases h : List.splitOn c s with
  | nil =>
    have := congrArg (List.intercalate [c]) h
    rw [List.intercalate_splitOn] at this
    simp [List.intercalate] at this
    exact absurd (this ▸ h) (by simp)
  | cons a l => simp

theorem splitNL_ne_nil (s : Str) : splitNL s ≠ [] := splitOn_ne_nil '\n' s

theorem pySortDesc_perm (key : α → ℚ) (l : List α) : (pySortDesc key l).Perm l :=
  List.perm_insertionSort _ l

theorem pySortDesc_sorted (key : α → ℚ) (l : List α) :
    List.Sorted (fun a b => key b ≤ key a) (pySortDesc key l) := by
  haveI : IsTotal α (fun a b => key b ≤ key a) := ⟨fun a b => le_total (key b) (key a)⟩
  haveI : IsTrans α (fun a b => key b ≤ key a) :=
    ⟨fun _ _ _ h1 h2 => le_trans h2 h1⟩
  exact List.sorted_insertionSort _ l

/-- The filter–sort–truncate shape shared by `SemanticSearch.search`,
`EmbeddingGenerator.find_similar_snippets` and `RankingEngine.rank_results`:
the prefix of length `k` of the descending sort is itself sorted, no longer
than `k`, and the dropped remainder scores no higher than anything kept. -/
theorem pySortDesc_take_spec (key : α → ℚ) (l : List α) (k : Nat) :
    List.Sorted (fun a b => key b ≤ key a) ((pySortDesc key l).take k)
    ∧ ((pySortDesc key l).take k).length ≤ k
    ∧ ∃ rest, (((pySortDesc key l).take k) ++ rest).Perm l
        ∧ ∀ b ∈ rest, ∀ a ∈ (pySortDesc key l).take k, key b ≤ key a := by
  refine ⟨(pySortDesc_sorted key l).sublist (List.take_sublist _ _), ?_, ?_⟩
  · exact List.length_take_le k (pySortDesc key l)
  · refine ⟨(pySortDesc key l).drop k, ?_, ?_⟩
    · rw [List.take_append_drop]
      exact pySortDesc_perm key l
    · intro b hb a ha
      have hs := pySortDesc_sorted key l
      rw [← List.take_append_drop k (pySortDesc key l)] at hs
      exact (List.pairwise_append.mp hs).2.2 a ha b hb

/-- C7: for every snippet content and complexity level, the extractor's
quality score equals 7.0 plus 1.0 if the line count is in `[5, 50]` or minus
1.0 if it is greater than 50, plus 0.5 for low complexity or minus 0.5 for
high complexity, plus 0.5 if the comment-line ratio is in `[0.1, 0.3]` or
minus 0.5 if the ratio is greater than 0.5, the result clamped to
`[1.0, 10.0]`; in particular the quality score is always within
`[1.0, 10.0]`. -/
theorem c7_extractor_quality_score_formula_and_bounds
    (content complexity : Str) :
    CodeParser.calculate_quality_score content complexity
      = CodeParser.spec_quality_score content complexity
    ∧ 1 ≤ CodeParser.calculate_quality_score content complexity
    ∧ CodeParser.calculate_quality_score content complexity ≤ 10 := by
  refine ⟨?_, ?_, ?_⟩
  · simp only [CodeParser.calculate_quality_score, CodeParser.spec_quality_score,
      if_pos (splitNL_ne_nil content)]
    split_ifs <;> ring_nf
  · simp only [CodeParser.calculate_quality_score]
    exact le_max_left 1 _
  · simp only [CodeParser.calculate_quality_score]
    exact max_le (by norm_num) (min_le_left 10 _)

/-!  Concrete fixtures used to instantiate the theorems below at specific
inputs. -/

/-- A minimal search query fixture (all filters empty). -/
def exQuery : SearchQuery :=
  { query := cl "q", intent := none, languages := [], repositories := [],
    complexity_levels := [], similarity_threshold := 0.7, expand_query := true,
    query_keywords := [], query_topics := [] }

/-- A minimal `models` snippet fixture. -/
def exMSnippet : RankingEngine.MSnippet :=
  { content := cl "", name := none, docstring := none, parameters := none,
    return_type := none, keywords := [], language := cl "python",
    repository_id := cl "r", complexity_level := cl "low",
    code_type := cl "function", complexity_score := 0, quality_score := 0,
    readability_score := 0, usage_count := 0, created_at := 0 }

/-- A minimal ranked-search-result fixture. -/
def exRResult : RankingEngine.RSearchResult :=
  { snippet := exMSnippet, similarity_score := 0, relevance_score := 0,
    quality_boost := 1, popularity_boost := 1, recency_boost := 1,
    documentation_boost := 1, view_count := 0 }

/-- A minimal extractor snippet fixture. -/
def exCSnippet : CodeParser.CodeSnippet :=
  { id := cl "i", content := cl "x", language := cl "python",
    file_path := cl "f.py", line_start := 1, line_end := 1,
    name := cl "bubble_sort", type := cl "function", complexity := cl "low",
    quality_score := 7, tags := [cl "python"], description := cl "d" }
set_option maxRecDepth 8000

/-- C4, counterexample: on a Python file whose AST parse fails (here
`"def f(:\n…"`), `_parse_python_file` returns the empty list — it does not
degrade to the generic block strategy, although that strategy produces a
non-empty snippet list for the very same content. -/
theorem c4_counterexample :
    CodeParser.parse_python_file (fun _ => Except.error ())
        (cl "def f(:\nabcdefghijklmnopqrstuvwxyz") (cl "bad.py") = []
    ∧ CodeParser.parse_generic_file
        (cl "def f(:\nabcdefghijklmnopqrstuvwxyz") (cl "bad.py") (cl "python") ≠ [] := by
  constructor
  · rfl
  · decide

/-- C4, amended: for every file whose structural (AST) parse fails,
extraction never raises to the caller (`parse_python_file` is total) and the
caller receives the snippets collected before the failure — the empty list,
since the parse is the first statement — with no degradation to the generic
block strategy. -/
theorem c4_amended_parse_failure_yields_empty (astParse : CodeParser.AstParse)
    (content fp : Str) (e : Unit) (h : astParse content = Except.error e) :
    CodeParser.parse_python_file astParse content fp = [] := by
  simp [CodeParser.parse_python_file, h]

/-- C4, witness for the amended theorem at a concrete failing parse. -/
theorem c4_amended_witness :
    CodeParser.parse_python_file (fun _ => Except.error ())
      (cl "def f(:\nabcdefghijklmnopqrstuvwxyz") (cl "w.py") = [] :=
  c4_amended_parse_failure_yields_empty (fun _ => Except.error ()) _ _ () rfl

/-- C5, counterexample: when both underlying strategies produce a (truthy)
vector but of the dimensionalities the generator itself declares — 768 for
CodeBERT, 384 for the sentence model — the hybrid strategy returns `None`
(the ragged `np.mean` raises and the `except` arm swallows it), not the
average the claim promises. -/
theorem c5_counterexample :
    EmbeddingGenerator.optVecTruthy (some (List.replicate 768 (1 : ℚ))) = true
    ∧ EmbeddingGenerator.optVecTruthy (some (List.replicate 384 (1 : ℚ))) = true
    ∧ EmbeddingGenerator.get_embedding_dimension (cl "codebert") = 768
    ∧ EmbeddingGenerator.get_embedding_dimension (cl "sentence") = 384
    ∧ EmbeddingGenerator.generate_hybrid_embedding
        (some (List.replicate 768 (1 : ℚ))) (some (List.replicate 384 (1 : ℚ)))
        = none := by
  refine ⟨rfl, rfl, by decide, by decide, ?_⟩
  decide

/-- C5, amended: the hybrid strategy never raises (it is a total function);
it returns `None` when no underlying strategy produces a truthy vector, the
single vector unchanged when exactly one does, the pointwise average when
both do with equal dimensionality, and `None` — not an average — when the
two produced vectors differ in length, as the declared CodeBERT (768) and
sentence (384) dimensionalities do. -/
theorem c5_amended_hybrid_characterization (cb se : Option (List ℚ)) :
    (EmbeddingGenerator.optVecTruthy cb = false →
      EmbeddingGenerator.optVecTruthy se = false →
      EmbeddingGenerator.generate_hybrid_embedding cb se = none)
    ∧ (∀ v, cb = some v → v ≠ [] → EmbeddingGenerator.optVecTruthy se = false →
      EmbeddingGenerator.generate_hybrid_embedding cb se = some v)
    ∧ (∀ w, se = some w → w ≠ [] → EmbeddingGenerator.optVecTruthy cb = false →
      EmbeddingGenerator.generate_hybrid_embedding cb se = some w)
    ∧ (∀ v w, cb = some v → se = some w → v ≠ [] → w ≠ [] → v.length = w.length →
      EmbeddingGenerator.generate_hybrid_embedding cb se
        = some ((List.range v.length).map (fun i => (v.getD i 0 + w.getD i 0) / 2)))
    ∧ (∀ v w, cb = some v → se = some w → v ≠ [] → w ≠ [] → v.length ≠ w.length →
      EmbeddingGenerator.generate_hybrid_embedding cb se = none) := by
  refine ⟨?_, ?_, ?_, ?_, ?_⟩
  · intro h1 h2
    simp [EmbeddingGenerator.generate_hybrid_embedding, h1, h2]
  · intro v hcb hv h2
    subst hcb
    have htr : EmbeddingGenerator.optVecTruthy (some v) = true := by
      simp [EmbeddingGenerator.optVecTruthy, hv]
    simp [EmbeddingGenerator.generate_hybrid_embedding, htr, h2]
  · intro w hse hw h1
    subst hse
    have htr : EmbeddingGenerator.optVecTruthy (some w) = true := by
      simp [EmbeddingGenerator.optVecTruthy, hw]
    simp [EmbeddingGenerator.generate_hybrid_embedding, htr, h1]
  · intro v w hcb hse hv hw hlen
    subst hcb; subst hse
    have htv : EmbeddingGenerator.optVecTruthy (some v) = true := by
      simp [EmbeddingGenerator.optVecTruthy, hv]
    have htw : EmbeddingGenerator.optVecTruthy (some w) = true := by
      simp [EmbeddingGenerator.optVecTruthy, hw]
    simp only [EmbeddingGenerator.generate_hybrid_embedding, htv, htw, if_true,
      Option.getD_some, List.singleton_append, List.cons_ne_nil, if_false,
      List.length_cons, List.length_singleton]
    norm_num [EmbeddingGenerator.npMeanAxis0, hlen.symm]
  · intro v w hcb hse hv hw hlen
    subst hcb; subst hse
    have htv : EmbeddingGenerator.optVecTruthy (some v) = true := by
      simp [EmbeddingGenerator.optVecTruthy, hv]
    have htw : EmbeddingGenerator.optVecTruthy (some w) = true := by
      simp [EmbeddingGenerator.optVecTruthy, hw]
    simp only [EmbeddingGenerator.generate_hybrid_embedding, htv, htw, if_true,
      Option.getD_some, List.singleton_append, List.cons_ne_nil, if_false,
      List.length_cons, List.length_singleton]
    norm_num [EmbeddingGenerator.npMeanAxis0]
    intro h
    exact absurd h.symm hlen

/-- C5, witness for the amended theorem: one strategy succeeding passes its
vector through unchanged. -/
theorem c5_amended_witness :
    EmbeddingGenerator.generate_hybrid_embedding (some [(1 : ℚ), 2]) none
      = some [(1 : ℚ), 2] :=
  (c5_amended_hybrid_characterization (some [(1 : ℚ), 2]) none).2.1
    [(1 : ℚ), 2] rfl (by simp) rfl

/-- C10: query processing never propagates an exception, but it is not
atomic: `_extract_topics` always raises `NameError` (it reads the undefined
global `SUPPORTED_LANGUAGES`), so for every input query the returned object
carries the mutations of the stages that ran — keywords set, intent set,
expansion terms appended to the query text — while topic assignment and the
final normalization are skipped.  In particular (second and third
conjuncts) a query `"Sort!"` with expansion enabled comes back with the
expanded text `"Sort! sorting order arrange"`, which is not normalized. -/
theorem c10_process_query_partial_mutation :
    (∀ (detect : Str → Option SearchIntent) (q : SearchQuery),
      QueryProcessor.process_query detect q
        = { q with
            query_keywords := QueryProcessor.extract_keywords q.query
            intent := detect q.query
            query := if q.expand_query then
                q.query ++ ' ' :: joinSp (QueryProcessor.expand_query q.query)
              else q.query })
    ∧ (QueryProcessor.process_query (fun _ => none)
        { query := cl "Sort!", intent := none, languages := [], repositories := [],
          complexity_levels := [], similarity_threshold := 0.7, expand_query := true,
          query_keywords := [], query_topics := [] }).query
      = cl "Sort! sorting order arrange"
    ∧ cl "Sort! sorting order arrange"
      ≠ QueryProcessor.normalize_query (cl "Sort! sorting order arrange") := by
  refine ⟨?_, ?_, ?_⟩
  · intro detect q
    by_cases h : q.expand_query <;>
      simp [QueryProcessor.process_query, QueryProcessor.extract_topics, h]
  · decide
  · decide

theorem foldl_add_ite_count (p : α → Bool) (c : ℚ) :
    ∀ (l : List α) (init : ℚ),
      l.foldl (fun sc x => if p x then sc + c else sc) init
        = init + c * ((l.filter p).length : ℚ) := by
  intro l
  induction l with
  | nil => intro init; simp
  | cons a l ih =>
    intro init
    by_cases h : p a
    · simp [h, ih]
      ring
    · simp [h, ih]

theorem foldl_add_fn (f : α → ℚ) :
    ∀ (l : List α) (init : ℚ),
      l.foldl (fun sc x => sc + f x) init = init + (l.map f).sum := by
  intro l
  induction l with
  | nil => intro init; simp
  | cons a l ih => intro init; simp [ih]; ring

/-- The sequential lexical scoring of the orchestrator agrees with the flat
additive rule of the specification. -/
theorem calc_eq_spec (s : CodeParser.CodeSnippet) (q : Str) :
    SemanticSearch.calculate_relevance_score s q = SemanticSearch.spec_lexical_score s q := by
  simp only [SemanticSearch.calculate_relevance_score, SemanticSearch.spec_lexical_score]
  have hbody : (fun (sc : ℚ) kw =>
      let sc := if pyIn kw (lowerStr s.content) then sc + 0.1 else sc
      let sc := if pyIn kw (lowerStr s.name) then sc + 0.2 else sc
      if pyIn kw (lowerStr s.description) then sc + 0.15 else sc)
    = fun (sc : ℚ) kw => sc +
      ((if pyIn kw (lowerStr s.content) then (0.1 : ℚ) else 0)
        + (if pyIn kw (lowerStr s.name) then 0.2 else 0)
        + (if pyIn kw (lowerStr s.description) then 0.15 else 0)) := by
    funext sc kw
    dsimp only
    split_ifs <;> ring
  rw [hbody, foldl_add_fn, foldl_add_ite_count]
  congr 1
  split_ifs <;> ring

/-- C6, counterexample: two snippets with identical embeddings tie on
similarity; the lookup returns them in the insertion order of the
snippet-embedding mapping (`"b"` before `"a"`), not by snippet ID
ascending, although `"a"` precedes `"b"` in the ID order.  (With identical
embedding vectors, any similarity function — in particular the cosine
similarity of the source — gives both pairs the same score.) -/
theorem c6_counterexample :
    EmbeddingGenerator.find_similar_snippets (fun _ _ => 1) [1]
        [(cl "b", [1]), (cl "a", [1])] 10 0
      = [(cl "b", 1), (cl "a", 1)]
    ∧ List.Lex (· < ·) (cl "a") (cl "b") := by
  constructor
  · decide
  · exact List.Lex.rel (by decide)

/-- C6, amended: for every similarity function, query embedding, mapping,
`top_k` and threshold, the lookup returns pairs scoring at least the
threshold, sorted descending by score — ties kept in the mapping's
insertion order (Python dict order) rather than by snippet ID — and
truncated to the `top_k` best: every dropped candidate scores no higher
than every returned one. -/
theorem c6_amended_find_similar_filter_sort_truncate
    (sim : List ℚ → List ℚ → ℚ) (query_embedding : List ℚ)
    (snips : List (Str × List ℚ)) (top_k : Nat) (threshold : ℚ) :
    List.Sorted (fun a b : Str × ℚ => b.2 ≤ a.2)
      (EmbeddingGenerator.find_similar_snippets sim query_embedding snips top_k threshold)
    ∧ (EmbeddingGenerator.find_similar_snippets sim query_embedding snips top_k threshold).length
        ≤ top_k
    ∧ (∀ p ∈ EmbeddingGenerator.find_similar_snippets sim query_embedding snips top_k threshold,
        threshold ≤ p.2)
    ∧ ∃ rest,
        (EmbeddingGenerator.find_similar_snippets sim query_embedding snips top_k threshold
            ++ rest).Perm
          (snips.filterMap (fun p =>
            let s := sim query_embedding p.2
            if threshold ≤ s then some (p.1, s) else none))
        ∧ ∀ b ∈ rest,
            ∀ a ∈ EmbeddingGenerator.find_similar_snippets sim query_embedding snips top_k
                threshold,
              b.2 ≤ a.2 := by
  have hspec := pySortDesc_take_spec (fun p : Str × ℚ => p.2)
    (snips.filterMap (fun p =>
      let s := sim query_embedding p.2
      if threshold ≤ s then some (p.1, s) else none)) top_k
  refine ⟨hspec.1, hspec.2.1, ?_, hspec.2.2⟩
  intro p hp
  have hmem : p ∈ snips.filterMap (fun p =>
      let s := sim query_embedding p.2
      if threshold ≤ s then some (p.1, s) else none) := by
    obtain ⟨rest, hperm, _⟩ := hspec.2.2
    exact hperm.subset (by simp [EmbeddingGenerator.find_similar_snippets] at hp ⊢; exact Or.inl hp)
  obtain ⟨x, _, heq⟩ := List.mem_filterMap.mp hmem
  by_cases hc : threshold ≤ sim query_embedding x.2
  · simp only [hc, if_pos] at heq
    cases heq
    exact hc
  · simp [hc] at heq

/-- C6, witness for the amended theorem at a concrete lookup. -/
theorem c6_amended_witness :
    (EmbeddingGenerator.find_similar_snippets (fun _ _ => 1) [1]
      [(cl "a", [1])] 1 0).length ≤ 1 :=
  (c6_amended_find_similar_filter_sort_truncate (fun _ _ => 1) [1]
    [(cl "a", [1])] 1 0).2.1

/-- C2: the orchestrator's `search` scores every snippet by the fixed
additive lexical rule (0.8 content / 0.9 name / 0.7 description / 0.6 per
matching tag / 0.5 language / 0.4 kind / 0.3 file path, the 0.1/0.2/0.15
per-token bonuses and `quality_score × 0.01`, capped at 1.0 — first
conjunct, the sequential source computation equals the flat specification
rule), and returns only snippets scoring at least the threshold, sorted in
descending score order, truncated to `max_results`, keeping a best-scoring
subset (every result dropped by filtering-into-`rest` scores no higher than
anything returned). -/
theorem c2_search_scoring_filter_sort_truncate
    (corpus : List CodeParser.CodeSnippet) (query : Str) (max_results : Nat)
    (similarity_threshold : ℚ) :
    (∀ (s : CodeParser.CodeSnippet) (q : Str),
      SemanticSearch.calculate_relevance_score s q = SemanticSearch.spec_lexical_score s q)
    ∧ List.Sorted (fun a b : SemanticSearch.SSearchResult => b.score ≤ a.score)
        (SemanticSearch.search corpus query max_results similarity_threshold)
    ∧ (SemanticSearch.search corpus query max_results similarity_threshold).length
        ≤ max_results
    ∧ (∀ r ∈ SemanticSearch.search corpus query max_results similarity_threshold,
        similarity_threshold ≤ r.score
        ∧ r.snippet ∈ corpus
        ∧ r.score = SemanticSearch.spec_lexical_score r.snippet (lowerStr query)) := by
  refine ⟨fun s q => calc_eq_spec s q, ?_, ?_, ?_⟩
  all_goals by_cases hc : corpus = []
  · simp [SemanticSearch.search, hc]
  · simp only [SemanticSearch.search, hc, if_false]
    exact (pySortDesc_take_spec _ _ _).1
  · simp [SemanticSearch.search, hc]
  · simp only [SemanticSearch.search, hc, if_false]
    exact (pySortDesc_take_spec _ _ _).2.1
  · simp [SemanticSearch.search, hc]
  · intro r hr
    simp only [SemanticSearch.search, hc, if_false] at hr
    have hmem : r ∈ corpus.filterMap (fun s =>
        let score := SemanticSearch.calculate_relevance_score s (lowerStr query)
        if similarity_threshold ≤ score then
          some { snippet := s, score := score,
                 match_type := SemanticSearch.determine_match_type s (lowerStr query),
                 highlighted_content :=
                   SemanticSearch.highlight_matches s.content (lowerStr query) }
        else none) := by
      obtain ⟨rest, hperm, _⟩ := (pySortDesc_take_spec
        (fun r : SemanticSearch.SSearchResult => r.score) _ max_results).2.2
      exact hperm.subset (by simp; exact Or.inl hr)
    obtain ⟨x, hx, heq⟩ := List.mem_filterMap.mp hmem
    by_cases hth : similarity_threshold ≤
        SemanticSearch.calculate_relevance_score x (lowerStr query)
    · simp only [hth, if_pos] at heq
      cases heq
      exact ⟨hth, hx, calc_eq_spec x (lowerStr query)⟩
    · simp [hth] at heq

/-- C2, witness at a one-snippet corpus. -/
theorem c2_witness :
    (SemanticSearch.search [exCSnippet] (cl "sort") 5 0).length ≤ 5 :=
  (c2_search_scoring_filter_sort_truncate [exCSnippet] (cl "sort") 5 0).2.2.1

/-- The four boost caps applied by `apply_boosts` hold for every result it
returns. -/
theorem apply_boosts_one_caps (q : SearchQuery) (r0 : RankingEngine.RSearchResult) :
    (RankingEngine.apply_boosts_one q r0).quality_boost ≤ 2
    ∧ (RankingEngine.apply_boosts_one q r0).popularity_boost ≤ 1.5
    ∧ (RankingEngine.apply_boosts_one q r0).recency_boost ≤ 1.3
    ∧ (RankingEngine.apply_boosts_one q r0).documentation_boost ≤ 1.2 := by
  simp only [RankingEngine.apply_boosts_one]
  exact ⟨min_le_right _ _, min_le_right _ _, min_le_right _ _, min_le_right _ _⟩

/-- C1: after boost assignment (`apply_boosts`) and ranking
(`rank_results`), every result carries boosts independently capped at 2.0 /
1.5 / 1.3 / 1.2, and its final relevance score equals the weighted sum of
the six sub-scores (semantic similarity, keyword, quality, popularity,
recency, documentation, under the configured `SEARCH_WEIGHTS`) multiplied by
the four boost factors, the product capped at 1.0; in particular the final
relevance score is at most 1.0 and the boosts act multiplicatively. -/
theorem c1_final_score_is_capped_boosted_weighted_sum
    (now : ℤ) (q : SearchQuery) (rs : List RankingEngine.RSearchResult)
    (r : RankingEngine.RSearchResult)
    (hr : r ∈ RankingEngine.rank_results now (RankingEngine.apply_boosts rs q) q) :
    r.quality_boost ≤ 2 ∧ r.popularity_boost ≤ 1.5 ∧ r.recency_boost ≤ 1.3
    ∧ r.documentation_boost ≤ 1.2
    ∧ r.relevance_score = min
        ((r.similarity_score * RankingEngine.weight_semantic_similarity
          + RankingEngine.calculate_keyword_score r q * RankingEngine.weight_keyword_match
          + RankingEngine.calculate_quality_score r * RankingEngine.weight_code_quality
          + RankingEngine.calculate_popularity_score r * RankingEngine.weight_popularity
          + RankingEngine.calculate_recency_score now r * RankingEngine.weight_recency
          + RankingEngine.calculate_documentation_score r
              * RankingEngine.weight_documentation)
          * r.quality_boost * r.popularity_boost * r.recency_boost
          * r.documentation_boost) 1
    ∧ r.relevance_score ≤ 1 := by
  have hr2 : r ∈ (RankingEngine.apply_boosts rs q).map
      (fun r => { r with relevance_score := RankingEngine.calculate_relevance_score now r q }) :=
    (pySortDesc_perm _ _).subset hr
  obtain ⟨r', hr', rfl⟩ := List.mem_map.mp hr2
  obtain ⟨r0, hr0, rfl⟩ := List.mem_map.mp hr'
  obtain ⟨h1, h2, h3, h4⟩ := apply_boosts_one_caps q r0
  refine ⟨h1, h2, h3, h4, rfl, ?_⟩
  exact min_le_right _ 1

/-- C1, witness at a concrete query and single-result list. -/
theorem c1_witness :
    ({ RankingEngine.apply_boosts_one exQuery exRResult with
        relevance_score := RankingEngine.calculate_relevance_score 0
          (RankingEngine.apply_boosts_one exQuery exRResult) exQuery }).relevance_score
      ≤ 1 :=
  (c1_final_score_is_capped_boosted_weighted_sum 0 exQuery [exRResult] _
    (List.mem_singleton.mpr rfl)).2.2.2.2.2

theorem lowerStr_take (n : Nat) (s : Str) :
    lowerStr (s.take n) = (lowerStr s).take n := by
  simp [lowerStr, List.map_take]

theorem lowerStr_drop (n : Nat) (s : Str) :
    lowerStr (s.drop n) = (lowerStr s).drop n := by
  simp [lowerStr, List.map_drop]

theorem splitWs_single (t : Str) (hne : t ≠ [])
    (hnw : ∀ ch ∈ t, pyIsSpace ch = false) : splitWs t = [t] := by
  cases t with
  | nil => exact absurd rfl hne
  | cons c rest =>
    have hc := hnw c (by simp)
    rw [splitWs]
    simp only [hc, Bool.false_eq_true, if_false]
    have htake : rest.takeWhile (fun d => !pyIsSpace d) = rest := by
      rw [List.takeWhile_eq_self_iff]
      intro a ha
      simp [hnw a (by simp [ha])]
    have hdrop : rest.dropWhile (fun d => !pyIsSpace d) = [] := by
      rw [List.dropWhile_eq_nil_iff]
      intro a ha
      simp [hnw a (by simp [ha])]
    rw [htake, hdrop]
    simp [splitWs]

theorem subCI_eq_spec_on_lowercase (t : Str) (ht : lowerStr t = t) :
    ∀ s, lowerStr s = s →
      SemanticSearch.subCI t (cl "<mark>" ++ t ++ cl "</mark>") s
        = SemanticSearch.spec_highlight_one t s := by
  intro s
  induction s using SemanticSearch.subCI.induct t (cl "<mark>" ++ t ++ cl "</mark>") with
  | case1 =>
    intro _
    simp [SemanticSearch.subCI, SemanticSearch.spec_highlight_one]
  | case2 c rest h ih =>
    intro hs
    rw [SemanticSearch.subCI, SemanticSearch.spec_highlight_one]
    rw [dif_pos h, dif_pos h]
    have htake : (c :: rest).take t.length = t := by
      have := h.2
      rwa [lowerStr_take, hs, ht] at this
    rw [htake]
    rw [ih (by rw [lowerStr_drop, hs])]
  | case3 c rest h ih =>
    intro hs
    rw [SemanticSearch.subCI, SemanticSearch.spec_highlight_one]
    rw [dif_neg h, dif_neg h]
    have hc : lowerStr rest = rest := by
      have := congrArg (List.drop 1) hs
      simpa [lowerStr] using this
    rw [ih hc]

/-- C9, amended: highlighting wraps each case-insensitive occurrence of
each whitespace-separated query token of length greater than 2 in a marker,
applied independently per token, but substitutes the query token itself for
the matched text (the token is lower-case as `search` passes it), so the
original casing of a matched span is lost; when the content is already
lower-case — as the token is — this coincides with the claim's wrapping of
the original matched text, proved here for a one-token query. -/
theorem c9_amended_highlight_lowercase_refinement (c t : Str)
    (hc : lowerStr c = c) (ht : lowerStr t = t) (hlen : 2 < t.length)
    (hnw : ∀ ch ∈ t, pyIsSpace ch = false) :
    SemanticSearch.highlight_matches c t = SemanticSearch.spec_highlight_one t c := by
  have hne : t ≠ [] := by
    intro h
    rw [h] at hlen
    simp at hlen
  rw [SemanticSearch.highlight_matches, if_neg hne, splitWs_single t hne hnw]
  simp only [List.foldl_cons, List.foldl_nil, hlen, if_pos]
  exact subCI_eq_spec_on_lowercase t ht c hc

/-- C9, witness for the amended theorem at a concrete content and token. -/
theorem c9_witness :
    SemanticSearch.highlight_matches (cl "sorting") (cl "sort")
      = SemanticSearch.spec_highlight_one (cl "sort") (cl "sorting") :=
  c9_amended_highlight_lowercase_refinement (cl "sorting") (cl "sort")
    (by decide) (by decide) (by decide) (by decide)

/-- C9, counterexample: content `"Sort"`, query token `"sort"` — the
highlighted output is `"<mark>sort</mark>"`: the text inside the marker is
the lower-cased query token, not the original matched content text
`"Sort"`, so the content is not preserved inside the markers. -/
theorem c9_counterexample :
    SemanticSearch.highlight_matches (cl "Sort") (cl "sort") = cl "<mark>sort</mark>"
    ∧ (cl "<mark>sort</mark>" : Str) ≠ cl "<mark>Sort</mark>" := by
  constructor
  · simp [SemanticSearch.highlight_matches, SemanticSearch.subCI, splitWs, cl, lowerStr,
      lowerChar, pyIsSpace]
  · decide

theorem char_toNat_ofNat (n : Nat) (h : n.isValidChar) : (Char.ofNat n).toNat = n := by
  simp only [Char.ofNat, h, dif_pos, Char.ofNatAux, Char.toNat]
  rfl

theorem lowerChar_idem (c : Char) : lowerChar (lowerChar c) = lowerChar c := by
  by_cases h : 65 ≤ c.toNat ∧ c.toNat ≤ 90
  · have h1 : lowerChar c = Char.ofNat (c.toNat + 32) := by rw [lowerChar, if_pos h]
    have h2 := char_toNat_ofNat (c.toNat + 32) (Or.inl (by omega))
    rw [h1, lowerChar, h2, if_neg (by omega)]
  · have h1 : lowerChar c = c := by rw [lowerChar, if_neg h]
    rw [h1, h1]

theorem pyIsSpace_toNat {c : Char} (h : pyIsSpace c = true) : c.toNat ≤ 32 := by
  simp [pyIsSpace] at h
  rcases h with ((((h | h) | h) | h) | h) | h <;> subst h <;> decide

theorem not_space_of_toNat {c : Char} (h : 33 ≤ c.toNat) : pyIsSpace c = false := by
  cases hs : pyIsSpace c
  · rfl
  · have := pyIsSpace_toNat hs
    omega

theorem lowerChar_of_space {c : Char} (h : pyIsSpace c = true) : lowerChar c = c := by
  have := pyIsSpace_toNat h
  rw [lowerChar, if_neg (by omega)]

theorem pyIsSpace_lowerChar (c : Char) : pyIsSpace (lowerChar c) = pyIsSpace c := by
  by_cases h : 65 ≤ c.toNat ∧ c.toNat ≤ 90
  · have h1 : lowerChar c = Char.ofNat (c.toNat + 32) := by rw [lowerChar, if_pos h]
    have h2 := char_toNat_ofNat (c.toNat + 32) (Or.inl (by omega))
    rw [h1, not_space_of_toNat (by omega), not_space_of_toNat (by omega)]
  · rw [lowerChar, if_neg h]

theorem mem_collapseWsAux {ch : Char} :
    ∀ (b : Bool) (s : Str), ch ∈ collapseWsAux b s →
      ch = ' ' ∨ (ch ∈ s ∧ pyIsSpace ch = false) := by
  intro b s
  induction s generalizing b with
  | nil => intro h; simp [collapseWsAux] at h
  | cons c rest ih =>
    intro h
    rw [collapseWsAux] at h
    by_cases hc : pyIsSpace c
    · rw [if_pos hc] at h
      cases b with
      | true =>
        simp only [if_pos] at h
        rcases ih true h with h1 | ⟨h2, h3⟩
        · exact Or.inl h1
        · exact Or.inr ⟨List.mem_cons_of_mem c h2, h3⟩
      | false =>
        simp only [Bool.false_eq_true, if_false, List.mem_cons] at h
        rcases h with h | h
        · exact Or.inl h
        · rcases ih true h with h1 | ⟨h2, h3⟩
          · exact Or.inl h1
          · exact Or.inr ⟨List.mem_cons_of_mem c h2, h3⟩
    · rw [if_neg hc] at h
      rcases List.mem_cons.mp h with h | h
      · subst h
        exact Or.inr ⟨List.mem_cons_self ch rest, by simpa using hc⟩
      · rcases ih false h with h1 | ⟨h2, h3⟩
        · exact Or.inl h1
        · exact Or.inr ⟨List.mem_cons_of_mem c h2, h3⟩

theorem collapseWsAux_head_true {hd : Char} :
    ∀ s : Str, (collapseWsAux true s).head? = some hd → pyIsSpace hd = false := by
  intro s
  induction s with
  | nil => intro h; simp [collapseWsAux] at h
  | cons c rest ih =>
    intro h
    rw [collapseWsAux] at h
    by_cases hc : pyIsSpace c
    · rw [if_pos hc, if_pos rfl] at h
      exact ih h
    · rw [if_neg hc] at h
      simp only [List.head?_cons, Option.some.injEq] at h
      subst h
      simpa using hc

theorem collapseWsAux_chain :
    ∀ (s : Str) (b : Bool),
      List.Chain' (fun a d => pyIsSpace a = false ∨ pyIsSpace d = false)
        (collapseWsAux b s) := by
  intro s
  induction s with
  | nil => intro b; simp [collapseWsAux]
  | cons c rest ih =>
    intro b
    rw [collapseWsAux]
    by_cases hc : pyIsSpace c
    · rw [if_pos hc]
      cases b with
      | true => exact ih true
      | false =>
        simp only [Bool.false_eq_true, if_false]
        rw [List.chain'_cons']
        exact ⟨fun y hy => Or.inr (collapseWsAux_head_true rest hy), ih true⟩
    · rw [if_neg hc]
      rw [List.chain'_cons']
      exact ⟨fun y hy => Or.inl (by simpa using hc), ih false⟩

theorem collapseWsAux_true_eq_false_of_head :
    ∀ s : Str, (∀ hd, s.head? = some hd → pyIsSpace hd = false) →
      collapseWsAux true s = collapseWsAux false s := by
  intro s h
  cases s with
  | nil => rfl
  | cons c rest =>
    have hc := h c rfl
    rw [collapseWsAux, collapseWsAux, if_neg (by simp [hc]), if_neg (by simp [hc])]

theorem collapseWs_eq_self :
    ∀ s : Str, (∀ ch ∈ s, pyIsSpace ch = true → ch = ' ') →
      List.Chain' (fun a d => pyIsSpace a = false ∨ pyIsSpace d = false) s →
      collapseWs s = s := by
  have main : ∀ s : Str, (∀ ch ∈ s, pyIsSpace ch = true → ch = ' ') →
      List.Chain' (fun a d => pyIsSpace a = false ∨ pyIsSpace d = false) s →
      collapseWsAux false s = s := by
    intro s
    induction s with
    | nil => intro _ _; rfl
    | cons c rest ih =>
      intro hws hch
      rw [collapseWsAux]
      by_cases hc : pyIsSpace c
      · rw [if_pos hc, if_neg (by simp)]
        have hce : c = ' ' := hws c (List.mem_cons_self c rest) hc
        have hhd : ∀ hd, rest.head? = some hd → pyIsSpace hd = false := by
          intro hd hhd
          cases rest with
          | nil => simp at hhd
          | cons d rest' =>
            simp only [List.head?_cons, Option.some.injEq] at hhd
            rcases (List.chain'_cons'.mp hch).1 d rfl with h | h
            · rw [hc] at h
              exact absurd h (by simp)
            · rw [← hhd]
              exact h
        rw [collapseWsAux_true_eq_false_of_head rest hhd]
        rw [ih (fun ch hm hw => hws ch (List.mem_cons_of_mem c hm) hw)
          (List.Chain'.tail hch)]
        rw [hce]
      · rw [if_neg hc]
        rw [ih (fun ch hm hw => hws ch (List.mem_cons_of_mem c hm) hw)
          (List.Chain'.tail hch)]
  exact fun s h1 h2 => main s h1 h2

theorem getLast?_mem_self {l : List α} {a : α} (h : l.getLast? = some a) : a ∈ l := by
  obtain ⟨hne, rfl⟩ := List.mem_getLast?_eq_getLast (Option.mem_def.mpr h)
  exact List.getLast_mem hne

theorem collapseWsAux_cons_false_ne_nil (d : Char) (rest : Str) :
    collapseWsAux false (d :: rest) ≠ [] := by
  rw [collapseWsAux]
  split_ifs <;> simp_all

theorem collapseWsAux_true_eq_nil_all_ws :
    ∀ s : Str, collapseWsAux true s = [] → ∀ ch ∈ s, pyIsSpace ch = true := by
  intro s
  induction s with
  | nil => intro _ ch h; simp at h
  | cons c rest ih =>
    intro h ch hch
    rw [collapseWsAux] at h
    by_cases hc : pyIsSpace c
    · rw [if_pos hc, if_pos rfl] at h
      rcases List.mem_cons.mp hch with h1 | h1
      · subst h1; exact hc
      · exact ih h ch h1
    · rw [if_neg hc] at h
      simp at h

theorem collapseWsAux_getLast :
    ∀ (s : Str) (b : Bool),
      (∀ lt, s.getLast? = some lt → pyIsSpace lt = false) →
      ∀ lt, (collapseWsAux b s).getLast? = some lt → pyIsSpace lt = false := by
  intro s
  induction s with
  | nil => intro b _ lt h; simp [collapseWsAux] at h
  | cons c rest ih =>
    intro b hin lt hout
    rw [collapseWsAux] at hout
    by_cases hc : pyIsSpace c
    · cases rest with
      | nil =>
        exact absurd hc (by simpa using hin c (by simp))
      | cons d rest' =>
        have hin' : ∀ x, (d :: rest').getLast? = some x → pyIsSpace x = false := by
          intro x hx
          exact hin x (by rwa [List.getLast?_cons_cons])
        rw [if_pos hc] at hout
        cases b with
        | true =>
          simp only [if_pos] at hout
          exact ih true hin' lt hout
        | false =>
          simp only [Bool.false_eq_true, if_false] at hout
          have hne : collapseWsAux true (d :: rest') ≠ [] := by
            intro hnil
            have hall := collapseWsAux_true_eq_nil_all_ws _ hnil
            have hmem : ∃ x, (d :: rest').getLast? = some x := by
              cases h : (d :: rest').getLast? with
              | none => simp at h
              | some x => exact ⟨x, rfl⟩
            obtain ⟨x, hx⟩ := hmem
            have hxs : x ∈ d :: rest' := getLast?_mem_self hx
            exact absurd (hall x hxs) (by simp [hin' x hx])
          cases hX : collapseWsAux true (d :: rest') with
          | nil => exact absurd hX hne
          | cons y Y =>
            rw [hX, List.getLast?_cons_cons] at hout
            rw [← hX] at hout
            exact ih true hin' lt hout
    · rw [if_neg hc] at hout
      cases rest with
      | nil =>
        simp only [collapseWsAux, List.getLast?_singleton, Option.some.injEq] at hout
        subst hout
        simpa using hc
      | cons d rest' =>
        have hin' : ∀ x, (d :: rest').getLast? = some x → pyIsSpace x = false := by
          intro x hx
          exact hin x (by rwa [List.getLast?_cons_cons])
        cases hX : collapseWsAux false (d :: rest') with
        | nil => exact absurd hX (collapseWsAux_cons_false_ne_nil d rest')
        | cons y Y =>
          rw [hX, List.getLast?_cons_cons] at hout
          rw [← hX] at hout
          exact ih false hin' lt hout

theorem dropWhile_head_not (p : Char → Bool) :
    ∀ (s : Str) (hd : Char), (s.dropWhile p).head? = some hd → p hd = false := by
  intro s
  induction s with
  | nil => intro hd h; simp at h
  | cons c rest ih =>
    intro hd h
    by_cases hc : p c
    · rw [List.dropWhile_cons, if_pos hc] at h
      exact ih hd h
    · rw [List.dropWhile_cons, if_neg hc] at h
      simp only [List.head?_cons, Option.some.injEq] at h
      subst h
      simpa using hc

theorem dropWhile_eq_self_of_head (p : Char → Bool) (s : Str)
    (h : ∀ hd, s.head? = some hd → p hd = false) : s.dropWhile p = s := by
  cases s with
  | nil => rfl
  | cons c rest => rw [List.dropWhile_cons, if_neg (by simp [h c rfl])]

theorem pyStrip_noLead (s : Str) :
    ∀ hd, (pyStrip s).head? = some hd → pyIsSpace hd = false :=
  fun hd h => dropWhile_head_not pyIsSpace _ hd h

theorem pyStrip_noTrail (s : Str) :
    ∀ lt, (pyStrip s).getLast? = some lt → pyIsSpace lt = false := by
  intro lt h
  rw [pyStrip] at h
  rcases List.dropWhile_suffix (l := (s.reverse.dropWhile pyIsSpace).reverse) pyIsSpace
    with ⟨t, ht⟩
  by_cases hnil : ((s.reverse.dropWhile pyIsSpace).reverse).dropWhile pyIsSpace = []
  · rw [hnil] at h
    simp at h
  · have h1 : ((s.reverse.dropWhile pyIsSpace).reverse).getLast? = some lt := by
      rw [← ht, List.getLast?_append_of_ne_nil t hnil]
      exact h
    rw [List.getLast?_reverse] at h1
    exact dropWhile_head_not pyIsSpace _ lt h1

theorem pyStrip_eq_self (s : Str)
    (hl : ∀ hd, s.head? = some hd → pyIsSpace hd = false)
    (ht : ∀ lt, s.getLast? = some lt → pyIsSpace lt = false) : pyStrip s = s := by
  rw [pyStrip]
  rw [dropWhile_eq_self_of_head pyIsSpace s.reverse
    (fun hd h => ht hd (by rwa [List.head?_reverse] at h))]
  rw [List.reverse_reverse]
  exact dropWhile_eq_self_of_head pyIsSpace s hl

theorem mem_pyStrip {ch : Char} {s : Str} (h : ch ∈ pyStrip s) : ch ∈ s := by
  rw [pyStrip] at h
  have h1 := (List.dropWhile_sublist pyIsSpace).subset h
  rw [List.mem_reverse] at h1
  have h2 := (List.dropWhile_sublist pyIsSpace).subset h1
  rwa [List.mem_reverse] at h2

theorem map_eq_self_of {f : α → α} :
    ∀ {l : List α}, (∀ x ∈ l, f x = x) → l.map f = l := by
  intro l
  induction l with
  | nil => intro _; rfl
  | cons a l ih =>
    intro h
    rw [List.map_cons, h a (by simp), ih (fun x hx => h x (List.mem_cons_of_mem a hx))]

theorem normalize_chars (q : Str) :
    ∀ ch ∈ QueryProcessor.normalize_query q,
      QueryProcessor.isAllowedQueryChar ch = true ∧ lowerChar ch = ch
      ∧ (pyIsSpace ch = true → ch = ' ') := by
  intro ch hch
  have hsp : QueryProcessor.isAllowedQueryChar ' ' = true ∧ lowerChar ' ' = ' '
      ∧ (pyIsSpace ' ' = true → ' ' = ' ') := by
    refine ⟨by decide, by decide, fun _ => rfl⟩
  rw [QueryProcessor.normalize_query] at hch
  rcases mem_collapseWsAux false _ hch with h1 | ⟨h1, hnw⟩
  · subst h1; exact hsp
  · have h2 := mem_pyStrip h1
    rcases List.mem_map.mp h2 with ⟨y, hy, hsub⟩
    by_cases hall : QueryProcessor.isAllowedQueryChar y
    · rw [if_pos hall] at hsub
      subst hsub
      rcases List.mem_map.mp hy with ⟨z, _, hz⟩
      subst hz
      exact ⟨hall, lowerChar_idem z, fun hw => by rw [hnw] at hw; cases hw⟩
    · rw [if_neg hall] at hsub
      subst hsub
      exact hsp

theorem normalize_noLead (q : Str) :
    ∀ hd, (QueryProcessor.normalize_query q).head? = some hd →
      pyIsSpace hd = false := by
  intro hd h
  rw [QueryProcessor.normalize_query, collapseWs] at h
  set x := pyStrip (List.map
    (fun c => if QueryProcessor.isAllowedQueryChar c = true then c else ' ')
    (lowerStr (collapseWs (pyStrip q)))) with hx
  cases hc : x with
  | nil => rw [hc] at h; simp [collapseWsAux] at h
  | cons c rest =>
    have hcs : pyIsSpace c = false := pyStrip_noLead _ c (by rw [← hx, hc]; rfl)
    rw [hc, collapseWsAux, if_neg (by simp [hcs])] at h
    simp only [List.head?_cons, Option.some.injEq] at h
    subst h
    exact hcs

theorem normalize_noTrail (q : Str) :
    ∀ lt, (QueryProcessor.normalize_query q).getLast? = some lt →
      pyIsSpace lt = false := by
  intro lt h
  rw [QueryProcessor.normalize_query, collapseWs] at h
  exact collapseWsAux_getLast _ false (fun x hx => pyStrip_noTrail _ x hx) lt h

theorem normalize_chain (q : Str) :
    List.Chain' (fun a d => pyIsSpace a = false ∨ pyIsSpace d = false)
      (QueryProcessor.normalize_query q) := by
  rw [QueryProcessor.normalize_query, collapseWs]
  exact collapseWsAux_chain _ false

/-- C8: query normalization is idempotent — applying `_normalize_query`
(collapse whitespace, lower-case, blank characters outside word characters,
whitespace, `-`, `_`, `.`, collapse whitespace again) twice yields the same
string as applying it once. -/
theorem c8_normalize_query_idempotent (q : Str) :
    QueryProcessor.normalize_query (QueryProcessor.normalize_query q)
      = QueryProcessor.normalize_query q := by
  set R := QueryProcessor.normalize_query q with hR
  have hchars := normalize_chars q
  rw [← hR] at hchars
  have h1 : pyStrip R = R :=
    pyStrip_eq_self R (by rw [hR]; exact normalize_noLead q)
      (by rw [hR]; exact normalize_noTrail q)
  have h2 : collapseWs R = R :=
    collapseWs_eq_self R (fun ch hm hw => (hchars ch hm).2.2 hw)
      (by rw [hR]; exact normalize_chain q)
  have h3 : lowerStr R = R := map_eq_self_of (fun ch hm => (hchars ch hm).2.1)
  have h4 : R.map
      (fun c => if QueryProcessor.isAllowedQueryChar c = true then c else ' ') = R :=
    map_eq_self_of (fun ch hm => by rw [if_pos ((hchars ch hm).1)])
  conv_lhs => rw [QueryProcessor.normalize_query]
  rw [h1, h2, h3, h4, h1, h2]

theorem groupConsecAux_mem_lt :
    ∀ (l : List Nat) (bs be : Nat), bs ≤ be →
      ∀ p ∈ CodeParser.groupConsecAux bs be l, p.1 < p.2 := by
  intro l
  induction l with
  | nil =>
    intro bs be hle p hp
    rw [CodeParser.groupConsecAux] at hp
    by_cases h : be - bs > 0
    · rw [if_pos h] at hp
      rcases List.mem_singleton.mp hp with rfl
      simp only
      omega
    · rw [if_neg h] at hp
      simp at hp
  | cons j rest ih =>
    intro bs be hle p hp
    rw [CodeParser.groupConsecAux] at hp
    by_cases hj : j = be + 1
    · rw [if_pos hj] at hp
      exact ih bs j (by omega) p hp
    · rw [if_neg hj] at hp
      rcases List.mem_append.mp hp with h | h
      · by_cases hg : be - bs > 0
        · rw [if_pos hg] at h
          rcases List.mem_singleton.mp h with rfl
          simp only
          omega
        · rw [if_neg hg] at h
          simp at h
      · exact ih j j le_rfl p h

theorem extract_module_snippets_spec (content fp : Str) :
    ∀ s ∈ CodeParser.extract_module_snippets content fp,
      s.line_start ≤ s.line_end
      ∧ s.content = spanText (splitNL content) s.line_start s.line_end := by
  intro s hs
  rw [CodeParser.extract_module_snippets] at hs
  rcases List.mem_filterMap.mp hs with ⟨p, hp, hcreate⟩
  have hlt : p.1 < p.2 := by
    rcases hg : (((splitNL content).enum.map (fun q => (q.1 + 1, q.2))).filter
        (fun q => !(pyStrip q.2).isEmpty && !pyStartsWith (pyStrip q.2) (cl "#"))).map
        Prod.fst with l
    rw [hg] at hp
    cases l with
    | nil => rw [CodeParser.groupConsec] at hp; simp at hp
    | cons j rest =>
      rw [CodeParser.groupConsec] at hp
      exact groupConsecAux_mem_lt rest j j le_rfl p hp
  rw [CodeParser.create_module_snippet] at hcreate
  by_cases hshort :
      (pyStrip (joinNL (sliceLines (splitNL content) p.1 p.2))).length < 10
  · rw [if_pos hshort] at hcreate
    cases hcreate
  · rw [if_neg hshort] at hcreate
    cases hcreate
    exact ⟨Nat.le_of_lt hlt, rfl⟩

theorem extract_python_node_spec (node : CodeParser.PyNode) (content fp : Str)
    (hkind : node.kind ≠ CodeParser.PyNodeKind.otherNode)
    (hline : node.lineno ≤ node.end_lineno) :
    ∃ s, CodeParser.extract_python_node node content fp = some s
      ∧ s.line_start ≤ s.line_end
      ∧ s.content = spanText (splitNL content) s.line_start s.line_end := by
  rw [CodeParser.extract_python_node]
  cases hk : node.kind with
  | otherNode => exact absurd hk hkind
  | functionDef => exact ⟨_, rfl, hline, rfl⟩
  | asyncFunctionDef => exact ⟨_, rfl, hline, rfl⟩
  | classDef => exact ⟨_, rfl, hline, rfl⟩

theorem mem_mkGenSnippet {fp lang : Str} {block : List Str} {cs e : Nat}
    {s : CodeParser.CodeSnippet} (h : s ∈ (CodeParser.mkGenSnippet fp lang block cs e).toList) :
    s.line_start = cs ∧ s.line_end = e ∧ s.content = joinNL block := by
  rw [CodeParser.mkGenSnippet] at h
  by_cases hg : (pyStrip (joinNL block)).length > 20
  · rw [if_pos hg] at h
    rcases List.mem_singleton.mp (by simpa using h) with rfl
    exact ⟨rfl, rfl, rfl⟩
  · rw [if_neg hg] at h
    simp at h

theorem sliceLines_empty_succ (L : List Str) (i : Nat) :
    sliceLines L (i + 1) i = [] := by
  rw [sliceLines]
  refine List.drop_eq_nil_of_le ?_
  simp only [Nat.add_sub_cancel, List.length_take]
  omega

theorem sliceLines_ne_nil_le {L : List Str} {a b : Nat} (h : sliceLines L a b ≠ [])
    (ha : 1 ≤ a) : a ≤ b := by
  rw [sliceLines] at h
  by_contra hab
  refine h (List.drop_eq_nil_of_le ?_)
  simp only [List.length_take]
  omega

theorem sliceLines_extend {L : List Str} {l : Str} {rest : List Str} {i curStart : Nat}
    (h1 : 1 ≤ i) (hcs : 1 ≤ curStart) (hle : curStart ≤ i)
    (hlen : i - 1 ≤ L.length) (hdrop : L.drop (i - 1) = l :: rest) :
    sliceLines L curStart i = sliceLines L curStart (i - 1) ++ [l] := by
  have hlt : i - 1 < L.length := by
    by_contra hge
    rw [List.drop_eq_nil_of_le (by omega)] at hdrop
    cases hdrop
  have htake : L.take i = L.take (i - 1) ++ [l] := by
    have hi : i = (i - 1) + 1 := by omega
    rw [hi, List.take_add, hdrop]
    rfl
  rw [sliceLines, htake, List.drop_append_eq_append_drop]
  have hlen2 : (L.take (i - 1)).length = i - 1 := by
    simp only [List.length_take]
    omega
  rw [hlen2]
  have : curStart - 1 - (i - 1) = 0 := by omega
  rw [this]
  rfl

theorem parse_generic_aux_spec (fp lang : Str) (L : List Str) :
    ∀ (rem : List Str) (i curStart : Nat) (curBlock : List Str),
      1 ≤ i → 1 ≤ curStart → curStart ≤ i →
      rem = L.drop (i - 1) → i - 1 ≤ L.length →
      curBlock = (sliceLines L curStart (i - 1)).filter CodeParser.isCodeLine →
      ∀ s ∈ CodeParser.parse_generic_aux fp lang rem i curBlock curStart,
        1 ≤ s.line_start ∧ s.line_start ≤ s.line_end ∧ s.line_end ≤ L.length
        ∧ s.content
            = joinNL ((sliceLines L s.line_start s.line_end).filter CodeParser.isCodeLine) := by
  intro rem
  induction rem with
  | nil =>
    intro i curStart curBlock hi hcs hle hdrop hlen hblock s hs
    rw [CodeParser.parse_generic_aux] at hs
    by_cases hb : curBlock ≠ []
    · rw [if_pos hb] at hs
      obtain ⟨h1, h2, h3⟩ := mem_mkGenSnippet hs
      have hne : sliceLines L curStart (i - 1) ≠ [] := by
        intro hnil
        rw [hnil] at hblock
        exact hb (by simp [hblock])
      have hcsle : curStart ≤ i - 1 := sliceLines_ne_nil_le hne hcs
      rw [h1, h2, h3, hblock]
      exact ⟨hcs, by omega, by omega, rfl⟩
    · rw [if_neg hb] at hs
      simp at hs
  | cons l rest ih =>
    intro i curStart curBlock hi hcs hle hdrop hlen hblock s hs
    have hlt : i - 1 < L.length := by
      by_contra hge
      rw [List.drop_eq_nil_of_le (by omega)] at hdrop
      cases hdrop
    have hrest : rest = L.drop i := by
      have := congrArg (List.drop 1) hdrop
      simp only [List.drop_drop, List.drop_succ_cons, List.drop_zero] at this
      rw [this]
      congr 1
      omega
    have hext := sliceLines_extend hi hcs hle hlen hdrop.symm
    rw [CodeParser.parse_generic_aux] at hs
    by_cases hcode : CodeParser.isCodeLine l
    · rw [if_pos hcode] at hs
      refine ih (i + 1) curStart (curBlock ++ [l]) (by omega) hcs (by omega) ?_ ?_ ?_ s hs
      · simpa using hrest
      · simp only [Nat.add_sub_cancel]
        omega
      · simp only [Nat.add_sub_cancel, hext, List.filter_append, hblock]
        simp [hcode]
    · rw [if_neg hcode] at hs
      by_cases hb : curBlock ≠ []
      · rw [if_pos hb] at hs
        rcases List.mem_append.mp hs with hmem | hmem
        · obtain ⟨h1, h2, h3⟩ := mem_mkGenSnippet hmem
          have hne : sliceLines L curStart (i - 1) ≠ [] := by
            intro hnil
            rw [hnil] at hblock
            exact hb (by simp [hblock])
          have hcsle : curStart ≤ i - 1 := sliceLines_ne_nil_le hne hcs
          rw [h1, h2, h3, hblock]
          exact ⟨hcs, by omega, by omega, rfl⟩
        · refine ih (i + 1) (i + 1) [] (by omega) (by omega) le_rfl ?_ ?_ ?_ s hmem
          · simpa using hrest
          · simp only [Nat.add_sub_cancel]
            omega
          · rw [Nat.add_sub_cancel, sliceLines_empty_succ]
            rfl
      · rw [if_neg hb] at hs
        refine ih (i + 1) curStart [] (by omega) hcs (by omega) ?_ ?_ ?_ s hs
        · simpa using hrest
        · simp only [Nat.add_sub_cancel]
          omega
        · push_neg at hb
          rw [Nat.add_sub_cancel, hext, List.filter_append, ← hblock, hb]
          simp [hcode]

theorem parse_generic_file_spec (content fp lang : Str) :
    ∀ s ∈ CodeParser.parse_generic_file content fp lang,
      1 ≤ s.line_start ∧ s.line_start ≤ s.line_end ∧ s.line_end ≤ (splitNL content).length
      ∧ s.content = joinNL ((sliceLines (splitNL content) s.line_start s.line_end).filter
          CodeParser.isCodeLine) :=
  parse_generic_aux_spec fp lang (splitNL content) (splitNL content) 1 1 []
    le_rfl le_rfl le_rfl (by simp) (by simp) (by simp [sliceLines])

/-- C3, amended: every snippet produced by the structural (AST-node),
module-block, or line-grouping extraction satisfies
`start_line ≤ end_line`; structural and module-block snippets' content
equals exactly the source text of lines `start_line..end_line`; a
line-grouping snippet's content equals the concatenation of the non-blank,
non-comment lines within its recorded span — which is the full span text
except when the span includes leading blank or comment lines that the block
skipped (the recorded `start_line` is then too small, as the counterexample
shows).  (The pattern-based JS/TS strategy stores only the regex-matched
text, which need not cover its whole line span either.) -/
theorem c3_amended_spans :
    (∀ (content fp lang : Str), ∀ s ∈ CodeParser.parse_generic_file content fp lang,
      1 ≤ s.line_start ∧ s.line_start ≤ s.line_end ∧ s.line_end ≤ (splitNL content).length
      ∧ s.content = joinNL ((sliceLines (splitNL content) s.line_start s.line_end).filter
          CodeParser.isCodeLine))
    ∧ (∀ (node : CodeParser.PyNode) (content fp : Str),
      node.kind ≠ CodeParser.PyNodeKind.otherNode → node.lineno ≤ node.end_lineno →
      ∃ s, CodeParser.extract_python_node node content fp = some s
        ∧ s.line_start ≤ s.line_end
        ∧ s.content = spanText (splitNL content) s.line_start s.line_end)
    ∧ (∀ (content fp : Str), ∀ s ∈ CodeParser.extract_module_snippets content fp,
      s.line_start ≤ s.line_end
      ∧ s.content = spanText (splitNL content) s.line_start s.line_end) :=
  ⟨parse_generic_file_spec, extract_python_node_spec, extract_module_snippets_spec⟩

/-- C3, witness for the amended theorem at a concrete function node. -/
theorem c3_amended_witness :
    ∃ s, CodeParser.extract_python_node
        ⟨CodeParser.PyNodeKind.functionDef, cl "f", 1, 2, 0, none⟩ (cl "a\nb") (cl "w2.py")
        = some s
      ∧ s.line_start ≤ s.line_end
      ∧ s.content = spanText (splitNL (cl "a\nb")) s.line_start s.line_end :=
  c3_amended_spans.2.1 ⟨CodeParser.PyNodeKind.functionDef, cl "f", 1, 2, 0, none⟩
    (cl "a\nb") (cl "w2.py") (by decide) (by decide)

/-- C3, counterexample: a file whose first line is blank.  The generic
block strategy never resets `current_start` while the current block is
empty, so the single snippet records the span `1..2`, yet its content is
only line 2 — not the source text `"\naaa…"` of lines 1..2. -/
theorem c3_counterexample :
    (CodeParser.parse_generic_file (cl "\naaaaaaaaaaaaaaaaaaaaaaaaaaaa")
        (cl "f.go") (cl "go")).map (fun s => (s.line_start, s.line_end, s.content))
      = [(1, 2, cl "aaaaaaaaaaaaaaaaaaaaaaaaaaaa")]
    ∧ spanText (splitNL (cl "\naaaaaaaaaaaaaaaaaaaaaaaaaaaa")) 1 2
      = cl "\naaaaaaaaaaaaaaaaaaaaaaaaaaaa"
    ∧ (cl "aaaaaaaaaaaaaaaaaaaaaaaaaaaa" : Str) ≠ cl "\naaaaaaaaaaaaaaaaaaaaaaaaaaaa" := by
  refine ⟨?_, by decide, by decide⟩
  decide
